import Mathlib

/-!
Verification development for the `crawler` repository.

Strings from the Rust source are modelled as `List Char` (`Str` below); Rust
byte indices coincide with character indices on the ASCII inputs the
development evaluates, and all list operations mirror the corresponding
`str`/`Vec` operations of the source.  Each definition is a direct
translation of the Rust function named in its doc comment.
-/

namespace Crawler

abbrev Str := List Char

/-- `s.to_lowercase()` (per-character lowercase; ASCII-faithful). -/
def lowerStr (s : Str) : Str := s.map Char.toLower

/-- Rust `str::trim`: strip whitespace from both ends. -/
def trimStr (s : Str) : Str :=
  ((s.dropWhile Char.isWhitespace).reverse.dropWhile Char.isWhitespace).reverse

/-- Split a list on a separator character, Rust `str::split(sep)`:
always returns at least one (possibly empty) piece. -/
def splitOnChar (sep : Char) : Str → List Str
  | [] => [[]]
  | c :: rest =>
    if c == sep then [] :: splitOnChar sep rest
    else
      match splitOnChar sep rest with
      | [] => [[c]]
      | p :: ps => (c :: p) :: ps

/-- Rust `str::lines`: split on `'\n'`, drop a final empty piece, and strip a
trailing `'\r'` from each line. -/
def splitLines (s : Str) : List Str :=
  let pieces := splitOnChar '\n' s
  let pieces :=
    match pieces.getLast? with
    | some [] => pieces.dropLast
    | _ => pieces
  pieces.map (fun l => if l.getLast? == some '\r' then l.dropLast else l)

/-- Rust `str::find(needle)` (byte index of the first occurrence of a
substring), used by `Robot::matches_pattern` through slice `find`. -/
def findSub (s pat : Str) : Option Nat :=
  if pat.isPrefixOf s then some 0
  else
    match s with
    | [] => none
    | _ :: t => (findSub t pat).map (· + 1)

/-! ## Robots data model (`src/check_robots.rs`) -/

/-- `check_robots.rs`: `struct Rule { pattern, allow }`. -/
structure Rule where
  pattern : Str
  allow : Bool
deriving Repr, DecidableEq

/-- `check_robots.rs`: `struct Group`.  The `crawl_delay` / `request_rate`
fields hold the raw directive value when it passes a float syntax check
(the Rust code stores the parsed `f64`; no claim reads the numeric value,
so the model keeps the raw text). -/
structure Group where
  user_agents : List Str
  rules : List Rule
  crawl_delay : Option Str
  request_rate : Option Str
deriving Repr, DecidableEq

/-- `check_robots.rs`: `struct Robot { groups, sitemaps }`. -/
structure Robot where
  groups : List Group
  sitemaps : List Str
deriving Repr, DecidableEq

/-- `MAX_ROBOTS_TXT_SIZE = 500 * 1024` (bytes in Rust; characters here). -/
def maxRobotsTxtSize : Nat := 500 * 1024

/-- Approximation of Rust's `f64::from_str` acceptance used only to decide
whether a `crawl-delay` / `request-rate` value is stored: optional sign,
then `inf`/`infinity`/`nan` (case-insensitive) or a decimal mantissa with
optional exponent.  No claim depends on the stored numeric value. -/
def parsesAsFloat (s : Str) : Bool :=
  let body := match s with
    | '+' :: r => r
    | '-' :: r => r
    | r => r
  let bl := lowerStr body
  if bl == "inf".toList || bl == "infinity".toList || bl == "nan".toList then true
  else
    let mantissaOk : Str → Bool := fun m =>
      let intPart := m.takeWhile Char.isDigit
      let rest := m.drop intPart.length
      match rest with
      | [] => !intPart.isEmpty
      | '.' :: frac =>
        let fracD := frac.takeWhile Char.isDigit
        fracD.length == frac.length && (!intPart.isEmpty || !frac.isEmpty)
      | _ => false
    match findSub body ['e'] , findSub body ['E'] with
    | none, none => mantissaOk body
    | _, _ =>
      let idx := match findSub body ['e'] , findSub body ['E'] with
        | some i, some j => min i j
        | some i, none => i
        | none, some j => j
        | none, none => 0
      let mant := body.take idx
      let expo := body.drop (idx + 1)
      let expoBody := match expo with
        | '+' :: r => r
        | '-' :: r => r
        | r => r
      mantissaOk mant && !expoBody.isEmpty && expoBody.all Char.isDigit

/-- `Robot::parse_line`: split at the first `':'`, trim both sides, require a
non-empty key. -/
def parseLine (line : Str) : Option (Str × Str) :=
  let pre := line.takeWhile (fun c => c != ':')
  if pre.length == line.length then none
  else
    let key := trimStr pre
    let value := trimStr (line.drop (pre.length + 1))
    if key.isEmpty then none else some (key, value)

/-- Parser state of the line loop in `Robot::new`. -/
structure ParseState where
  groups : List Group
  sitemaps : List Str
  current : Option Group
deriving Repr

/-- One iteration of the line loop of `Robot::new`. -/
def processLine (st : ParseState) (rawLine : Str) : ParseState :=
  let trimmed := trimStr rawLine
  if trimmed.isEmpty || trimmed.head? == some '#' then st
  else
    match parseLine trimmed with
    | none => st
    | some (key, value) =>
      let k := lowerStr key
      if k == "user-agent".toList then
        let groups' :=
          match st.current with
          | some g => if g.user_agents.isEmpty then st.groups else st.groups ++ [g]
          | none => st.groups
        { st with
          groups := groups'
          current := some { user_agents := [value], rules := [],
                            crawl_delay := none, request_rate := none } }
      else if k == "allow".toList then
        match st.current with
        | some g =>
          { st with current := some { g with rules := g.rules ++ [⟨value, true⟩] } }
        | none => st
      else if k == "disallow".toList then
        match st.current with
        | some g =>
          { st with current := some { g with rules := g.rules ++ [⟨value, false⟩] } }
        | none => st
      else if k == "crawl-delay".toList then
        if parsesAsFloat value then
          match st.current with
          | some g => { st with current := some { g with crawl_delay := some value } }
          | none => st
        else st
      else if k == "request-rate".toList then
        if parsesAsFloat value then
          match st.current with
          | some g => { st with current := some { g with request_rate := some value } }
          | none => st
        else st
      else if k == "sitemap".toList then
        { st with sitemaps := st.sitemaps ++ [value] }
      else st

/-- `Robot::new`: over-size input parses to the empty robot; otherwise fold
the line loop and finalize the last open group. -/
def Robot.new (text : Str) : Robot :=
  if text.length > maxRobotsTxtSize then { groups := [], sitemaps := [] }
  else
    let fin := (splitLines text).foldl processLine
      { groups := [], sitemaps := [], current := none }
    let groups :=
      match fin.current with
      | some g => if g.user_agents.isEmpty then fin.groups else fin.groups ++ [g]
      | none => fin.groups
    { groups := groups, sitemaps := fin.sitemaps }

/-! ## Pattern matching (`Robot::matches_pattern`) -/

/-- `pattern.split('*')` as in the Rust matcher. -/
def splitStar : Str → List Str := splitOnChar '*'

/-- The loop of `Robot::matches_pattern` over the parts after the first:
`pos` is `path_pos`, `path` is kept whole as in the Rust code.  The last
part returns the end-anchor or `contains` check; middle parts advance
`path_pos` past the leftmost occurrence. -/
def matchLoop (path : Str) (exactEnd : Bool) : List Str → Nat → Bool
  | [], _ => true
  | [part], pos =>
    if exactEnd then
      part.isSuffixOf path && decide (pos ≤ path.length - part.length)
    else
      (findSub (path.drop pos) part).isSome
  | part :: p2 :: rest, pos =>
    match findSub (path.drop pos) part with
    | some j => matchLoop path exactEnd (p2 :: rest) (pos + j + part.length)
    | none => false

/-- `Robot::matches_pattern`: strip a trailing `'$'`, split on `'*'`; a
star-free pattern is an equality (anchored) or prefix check, otherwise the
first part must match at the start and the loop handles the rest. -/
def matchesPattern (pattern path : Str) : Bool :=
  let exactEnd := pattern.getLast? == some '$'
  let pat := if exactEnd then pattern.dropLast else pattern
  match splitStar pat with
  | [] => true
  | [p] => if exactEnd then path == p else p.isPrefixOf path
  | p :: p2 :: rest =>
    if p.isPrefixOf path then matchLoop path exactEnd (p2 :: rest) p.length
    else false

/-! ## Group selection and rule selection -/

/-- `Robot::find_group`: exact case-insensitive match first, then the longest
case-insensitive prefix (excluding `*`, strict improvement only, scanning
groups then agents in order), then the first group containing the literal
agent `*`. -/
def Robot.findGroup (r : Robot) (userAgent : Str) : Option Group :=
  let ual := lowerStr userAgent
  match r.groups.find? (fun g => g.user_agents.any (fun a => lowerStr a == ual)) with
  | some g => some g
  | none =>
    let best := r.groups.foldl
      (fun (acc : Option Group × Nat) g =>
        g.user_agents.foldl
          (fun acc a =>
            if ((lowerStr a).isPrefixOf ual && lowerStr a != ['*'])
                && decide ((lowerStr a).length > acc.2) then
              (some g, (lowerStr a).length)
            else acc)
          acc)
      (none, 0)
    match best.1 with
    | some g => some g
    | none => r.groups.find? (fun g => g.user_agents.any (fun a => a == ['*']))

/-- `Robot::find_longest_matching_rule`: fold keeping the first rule whose
matching pattern is strictly longer than every earlier matching pattern
(the human-readable reason string of the Rust pair is omitted). -/
def findLongestMatchingRule (rules : List Rule) (path : Str) : Option Rule :=
  (rules.foldl
    (fun (acc : Option Rule × Nat) rule =>
      if matchesPattern rule.pattern path && decide (rule.pattern.length > acc.2) then
        (some rule, rule.pattern.length)
      else acc)
    (none, 0)).1

/-- `Robot::allow` after URL parsing: the Rust method parses the URL string,
takes its path (`normalize_path` is the identity in the source) and decides
from the selected group's rules; no group or no matching rule means
allowed. -/
def Robot.allowPath (r : Robot) (path userAgent : Str) : Bool :=
  match r.findGroup userAgent with
  | some g =>
    match findLongestMatchingRule g.rules path with
    | some rule => rule.allow
    | none => true
  | none => true

/-! ## Declarative pattern grammar (from the specification's words)

Modelled from the spec: "`*` matches any (possibly empty) run of characters;
a trailing `$` anchors to end-of-path; all other characters match literally";
a robots pattern matches from the start of the path, and without the anchor
the rest of the path is unconstrained. -/

/-- `CoreMatch p s`: pattern `p` (with no trailing-`$` handling) matches the
whole string `s`: a literal character matches itself, `*` matches any
possibly empty run of characters. -/
inductive CoreMatch : Str → Str → Prop where
  | nil : CoreMatch [] []
  | lit {c : Char} {p s : Str} : c ≠ '*' → CoreMatch p s → CoreMatch (c :: p) (c :: s)
  | starEmpty {p s : Str} : CoreMatch p s → CoreMatch ('*' :: p) s
  | starCons {c : Char} {p s : Str} : CoreMatch ('*' :: p) s → CoreMatch ('*' :: p) (c :: s)

/-- Declarative reading of a full robots rule pattern against a path:
with a trailing `$` the pattern must match the whole path, otherwise it must
match some prefix of the path. -/
def SpecPatternMatches (pattern path : Str) : Prop :=
  if pattern.getLast? = some '$' then CoreMatch pattern.dropLast path
  else ∃ t u, path = t ++ u ∧ CoreMatch pattern t

/-- Segment decomposition: `SegsMatch [q₁, …, qₖ] s` holds when
`s = q₁ ++ g₁ ++ q₂ ++ … ++ gₖ₋₁ ++ qₖ` for some gap strings `gᵢ`
(the reading of `q₁*q₂*…*qₖ` anchored at both ends). -/
inductive SegsMatch : List Str → Str → Prop where
  | single (q : Str) : SegsMatch [q] q
  | cons (q g : Str) {segs : List Str} {s : Str} :
      SegsMatch segs s → SegsMatch (q :: segs) (q ++ g ++ s)

/-- Tail decomposition used for the matcher loop: every segment, the first
included, is preceded by a gap; `anch = true` anchors the last segment at
the end, `anch = false` allows arbitrary trailing characters. -/
inductive TailSegs : List Str → Bool → Str → Prop where
  | lastAnchored (q g : Str) : TailSegs [q] true (g ++ q)
  | lastFree (q g t : Str) : TailSegs [q] false (g ++ q ++ t)
  | cons {anch : Bool} (q g : Str) {segs : List Str} {s : Str} :
      TailSegs segs anch s → TailSegs (q :: segs) anch (g ++ q ++ s)

/-! ## Fetch state machine (`src/fetch.rs` and `src/crawlers/stdout.rs`) -/

/-- An HTTP response as observed by the fetch loop.  Header lookup is
case-insensitive, as with reqwest's `HeaderMap`. -/
structure HttpResponse where
  status : Nat
  headers : List (Str × Str)
  body : Str
deriving Repr, DecidableEq

/-- One network attempt: either a transport error (`Err(e)` from
`client.get(..).send()`) or a response. -/
inductive NetResult where
  | err
  | resp (r : HttpResponse)
deriving Repr, DecidableEq

/-- `response.headers().get(name)`: first header whose name matches
case-insensitively. -/
def getHeader (headers : List (Str × Str)) (name : Str) : Option Str :=
  (headers.find? (fun h => lowerStr h.1 == lowerStr name)).map (·.2)

/-- Terminal outcomes of `FetchedPage::fetch`.  `success` records
`final_url` (the current URL at the 200), the Content-Type value, and the
body; error constructors mirror the `anyhow!` messages of the source.
`exhausted` is a model artifact for when the response oracle runs out. -/
inductive FetchOutcome where
  | success (finalUrl : Str) (contentType : Str) (body : Str)
  | tooManyRedirects
  | missingContentType
  | missingLocation
  | invalidRedirect
  | serverError (status : Nat)
  | httpError (status : Nat)
  | networkError
  | exhausted
deriving Repr, DecidableEq

/-- The loop of `FetchedPage::fetch` (`src/fetch.rs`), driven by a list of
network attempt results.  `resolve` stands for the external `url` crate's
`Url::parse(location).or_else(|_| current.join(location))`.  Constants from
the source: `max_redirects = 5` (caller), `max_retries = 3`, initial
`retry_delay = 500` ms; the returned list records every sleep duration in
order. -/
def fetchLoop (resolve : Str → Str → Option Str) :
    List NetResult → Str → Nat → Nat → Nat → List Nat → FetchOutcome × List Nat
  | responses, currentUrl, maxRedirects, retryCount, retryDelay, sleeps =>
    if maxRedirects == 0 then (.tooManyRedirects, sleeps)
    else
      match responses with
      | [] => (.exhausted, sleeps)
      | .err :: rest =>
        if retryCount < 3 then
          fetchLoop resolve rest currentUrl maxRedirects (retryCount + 1)
            (retryDelay * 2) (sleeps ++ [retryDelay])
        else (.networkError, sleeps)
      | .resp r :: rest =>
        if r.status == 200 then
          match getHeader r.headers "Content-Type".toList with
          | none => (.missingContentType, sleeps)
          | some ct => (.success currentUrl ct r.body, sleeps)
        else if r.status == 301 || r.status == 302 then
          match getHeader r.headers "Location".toList with
          | none => (.missingLocation, sleeps)
          | some loc =>
            match resolve currentUrl loc with
            | none => (.invalidRedirect, sleeps)
            | some u => fetchLoop resolve rest u (maxRedirects - 1) 0 retryDelay sleeps
        else if r.status == 500 || r.status == 503 then
          if retryCount < 3 then
            fetchLoop resolve rest currentUrl maxRedirects (retryCount + 1)
              (retryDelay * 2) (sleeps ++ [retryDelay])
          else (.serverError r.status, sleeps)
        else (.httpError r.status, sleeps)

/-- `FetchedPage::fetch` entry point: `max_redirects = 5`, `retry_count = 0`,
`retry_delay = 500` ms. -/
def fetchedPageFetch (resolve : Str → Str → Option Str)
    (responses : List NetResult) (url : Str) : FetchOutcome × List Nat :=
  fetchLoop resolve responses url 5 0 500 []

/-- Terminal outcomes of `StdOutCrawler::fetch_page`; `ok` returns the
response itself (the Rust method returns `reqwest::Response`). -/
inductive StdoutFetchOutcome where
  | ok (r : HttpResponse)
  | notHtml
  | tooManyRedirects
  | missingLocation
  | invalidRedirect
  | serverError (status : Nat)
  | httpError (status : Nat)
  | networkError
  | exhausted
deriving Repr, DecidableEq

/-- The loop of `StdOutCrawler::fetch_page` (`src/crawlers/stdout.rs`):
identical to `FetchedPage::fetch` except for the 200 branch — it fails
`notHtml` when a *present* Content-Type does not contain `text/html`, and
accepts a response with no Content-Type header — and the initial
`retry_delay` of 100 ms (struct field). -/
def stdoutFetchLoop (resolve : Str → Str → Option Str) :
    List NetResult → Str → Nat → Nat → Nat → List Nat → StdoutFetchOutcome × List Nat
  | responses, currentUrl, maxRedirects, retryCount, retryDelay, sleeps =>
    if maxRedirects == 0 then (.tooManyRedirects, sleeps)
    else
      match responses with
      | [] => (.exhausted, sleeps)
      | .err :: rest =>
        if retryCount < 3 then
          stdoutFetchLoop resolve rest currentUrl maxRedirects (retryCount + 1)
            (retryDelay * 2) (sleeps ++ [retryDelay])
        else (.networkError, sleeps)
      | .resp r :: rest =>
        if r.status == 200 then
          match getHeader r.headers "Content-Type".toList with
          | some ct =>
            if !(findSub ct "text/html".toList).isSome then (.notHtml, sleeps)
            else (.ok r, sleeps)
          | none => (.ok r, sleeps)
        else if r.status == 301 || r.status == 302 then
          match getHeader r.headers "Location".toList with
          | none => (.missingLocation, sleeps)
          | some loc =>
            match resolve currentUrl loc with
            | none => (.invalidRedirect, sleeps)
            | some u => stdoutFetchLoop resolve rest u (maxRedirects - 1) 0 retryDelay sleeps
        else if r.status == 500 || r.status == 503 then
          if retryCount < 3 then
            stdoutFetchLoop resolve rest currentUrl maxRedirects (retryCount + 1)
              (retryDelay * 2) (sleeps ++ [retryDelay])
          else (.serverError r.status, sleeps)
        else (.httpError r.status, sleeps)

/-- `StdOutCrawler::fetch_page` entry point (`max_redirects = 5`,
`retry_delay = 100` ms from `StdOutCrawler::new`). -/
def stdoutFetchPage (resolve : Str → Str → Option Str)
    (responses : List NetResult) (url : Str) : StdoutFetchOutcome × List Nat :=
  stdoutFetchLoop resolve responses url 5 0 100 []

/-- Resolution model for absolute `Location` values: `Url::parse` succeeds
and yields the location itself.  Used by the redirect theorems, whose
chains consist of absolute URLs. -/
def resolveAbs : Str → Str → Option Str := fun _ loc => some loc

/-- A `301`/`302` response carrying a `Location` header. -/
def redirectResp (status : Nat) (loc : Str) : NetResult :=
  .resp { status := status, headers := [("Location".toList, loc)], body := [] }

/-- A `200 OK` response with the given Content-Type and body. -/
def okResp (contentType body : Str) : NetResult :=
  .resp { status := 200, headers := [("Content-Type".toList, contentType)], body := body }

/-- A `200 OK` response with no Content-Type header. -/
def okRespNoCT (body : Str) : NetResult :=
  .resp { status := 200, headers := [], body := body }

/-- A bare `500`/`503` response. -/
def serverResp (status : Nat) : NetResult :=
  .resp { status := status, headers := [], body := [] }

/-! ## robots.txt acquisition by the two crawlers -/

/-- Status handling of `StdOutCrawler::fetch_robot_txt`
(`src/crawlers/stdout.rs` lines 308–335): a transport error or a 404 yields
no robot; *every other status* (403 included) parses the response body as
robots.txt. -/
def stdoutRobotFromFetch : Option HttpResponse → Option Robot
  | none => none
  | some r => if r.status == 404 then none else some (Robot.new r.body)

/-- Status handling of the web branch of `SqliteCrawler::fetch_robot_txt`
(`src/crawlers/sqlite.rs` lines 101–110): any response at all — 404 and 403
included — has its body parsed as robots.txt; only a transport (or body
read) error yields no robot. -/
def sqliteRobotFromFetch : Option HttpResponse → Option Robot
  | none => none
  | some r => some (Robot.new r.body)

/-! ## robots.txt fetch URLs -/

/-- A parsed URL as exposed by the `url` crate accessors the two
`fetch_robot_txt` implementations use: `scheme()`, `host_str()`, `port()`. -/
structure SUrl where
  scheme : Str
  host : Option Str
  port : Option Nat
deriving Repr, DecidableEq

/-- Decimal rendering of a port number. -/
def natToStr (n : Nat) : Str := (Nat.repr n).toList

/-- The robots.txt URL built by `StdOutCrawler::fetch_robot_txt`:
`{scheme}://{host}:{port}/robots.txt` when the URL has a port, otherwise
`{scheme}://{host}/robots.txt`; a missing host falls back to
`localhost`. -/
def stdoutRobotsUrl (u : SUrl) : Str :=
  match u.port with
  | some p =>
    u.scheme ++ "://".toList ++ u.host.getD "localhost".toList ++ [':']
      ++ natToStr p ++ "/robots.txt".toList
  | none =>
    u.scheme ++ "://".toList ++ u.host.getD "localhost".toList ++ "/robots.txt".toList

/-- The robots.txt URL built by `SqliteCrawler::fetch_robot_txt`:
`format!("{}://{}:/robots.txt", url.scheme(), domain)` — the port of the
original URL is never used and a bare `:` is always emitted; a URL without
a host is an error (`ok_or_else`), hence `Option`. -/
def sqliteRobotsUrl (u : SUrl) : Option Str :=
  u.host.map (fun h => u.scheme ++ "://".toList ++ h ++ ":/robots.txt".toList)

/-! ## OutLink persistence (`SqliteCrawler::save`) and the link extractor -/

/-- An `<a>` element as seen through the `scraper` crate: its `href`
attribute and its text nodes in document order. -/
structure Anchor where
  href : Option Str
  textNodes : List Str
deriving Repr, DecidableEq

/-- A row of the `links` table as built by `SqliteCrawler::save`. -/
structure OutLink where
  source_page_id : Nat
  target_url : Str
  link_text : Option Str
  link_type : Option Str
deriving Repr, DecidableEq

/-- Concatenation of an element's text nodes:
`element.text().collect::<Vec<_>>().join("")`. -/
def joinText (textNodes : List Str) : Str := textNodes.foldl (· ++ ·) []

/-- The link-persisting pass of `SqliteCrawler::save`
(`src/crawlers/sqlite.rs` lines 334–358): one row per `a[href]` element;
`target_url` is the raw href, `link_text` the full joined text (`None`
when empty), and `link_type` the constant `Some("internal")`. -/
def saveOutLinks (pageId : Nat) (anchors : List Anchor) : List OutLink :=
  anchors.filterMap (fun a =>
    a.href.map (fun h =>
      let t := joinText a.textNodes
      { source_page_id := pageId
        target_url := h
        link_text := if t.isEmpty then none else some t
        link_type := some "internal".toList }))

/-- The link text computed by the extractor's `create_link_info`
(`src/extract_links.rs`): joined text, trimmed, truncated to 100
characters. -/
def extractorLinkText (textNodes : List Str) : Str :=
  (trimStr (joinText textNodes)).take 100

/-- The prefix dispatch of the extractor's `categorize_link`
(`src/extract_links.rs` lines 96–120); `web` covers the final branch whose
internal/external split needs the external `url` crate. -/
inductive LinkClass where
  | javascript
  | mailto
  | phone
  | anchor
  | web
deriving Repr, DecidableEq

/-- `ExtractLinks::categorize_link` prefix dispatch on the raw href. -/
def classifyHrefKind (href : Str) : LinkClass :=
  if "javascript:".toList.isPrefixOf href then .javascript
  else if "mailto:".toList.isPrefixOf href then .mailto
  else if "tel:".toList.isPrefixOf href then .phone
  else if href.head? == some '#' then .anchor
  else .web

/-! ## Shared engine loop (`IAsyncCrawler::start`, `src/traits.rs`)

The engine state abstracts the SQLite frontier: one entry per queued URL
with the `url_queue.status` column, plus the set of saved page URLs
(`has_seen`).  `check_robot_policy` is modelled as a pure predicate on the
host (the `domains.allow_crawl` column with its create-default-true
behavior; `.unwrap_or(false)` folds errors into `false`). -/

/-- `url_queue.status` values. -/
inductive EntryStatus where
  | pending
  | processing
  | completed
  | failed
deriving Repr, DecidableEq

/-- A `url_queue` row (the session id is fixed throughout a run). -/
structure FrontierEntry where
  url : Str
  host : Str
  priority : Int
  status : EntryStatus
deriving Repr, DecidableEq

/-- Frontier plus saved pages. -/
structure EngineState where
  frontier : List FrontierEntry
  pages : List Str
deriving Repr, DecidableEq

/-- An entry is pending with maximal priority among pending entries —
`SqliteCrawler::next_queue` selects one such row
(`filter status = pending, order_by_desc priority, one()`). -/
def isMaxPending (f : List FrontierEntry) (e : FrontierEntry) : Bool :=
  e.status == .pending
    && f.all (fun e2 => e2.status != .pending || decide (e2.priority ≤ e.priority))

/-- `SqliteCrawler::next_queue`: pick the first pending entry of maximal
priority, atomically set its status to `processing`, and return its URL and
host. -/
def nextQueue (s : EngineState) : Option (Str × Str × EngineState) :=
  match s.frontier.find? (isMaxPending s.frontier) with
  | none => none
  | some e =>
    some (e.url, e.host,
      { s with
        frontier := s.frontier.map (fun e2 =>
          if e2.url == e.url then { e2 with status := .processing } else e2) })

/-- `SqliteCrawler::has_seen`: a saved page with this URL exists. -/
def hasSeen (s : EngineState) (u : Str) : Bool := s.pages.contains u

/-- `SqliteCrawler::save` at the page level: upsert of the (session, url)
page row. -/
def savePage (s : EngineState) (u : Str) : EngineState :=
  if s.pages.contains u then s else { s with pages := s.pages ++ [u] }

/-- `SqliteCrawler::mark_as_visited`: set the entry with this URL to
`completed` (no-op when absent). -/
def markVisited (s : EngineState) (u : Str) : EngineState :=
  { s with
    frontier := s.frontier.map (fun e =>
      if e.url == u then { e with status := .completed } else e) }

/-- `SqliteCrawler::add_to_queue`: insert a pending entry (priority 0) for
each URL that has no entry yet, in order; existing URLs are skipped. -/
def addToQueue (s : EngineState) (links : List (Str × Str)) : EngineState :=
  links.foldl
    (fun s l =>
      if s.frontier.any (fun e => e.url == l.1) then s
      else
        { s with
          frontier := s.frontier ++
            [{ url := l.1, host := l.2, priority := 0, status := .pending }] })
    s

/-- The batch-building loop of `IAsyncCrawler::start`
(`src/traits.rs` lines 105–127): while the batch holds fewer than 5 URLs,
pop from the queue; a popped URL joins the batch only if its host is new to
the batch, it has not been seen, and the robot policy check returns true;
otherwise it is lost for this iteration ("For now we'll just lose it").
The fuel argument bounds the recursion; each iteration consumes one pending
entry and leaves the frontier length unchanged, so fuel
`s.frontier.length` never runs out before `next_queue` returns `None`. -/
def buildBatchAux (policy : Str → Bool) :
    Nat → EngineState → List (Str × Str) → List Str → List Str →
    List (Str × Str) × List Str × EngineState
  | 0, s, batch, _, dropped => (batch, dropped, s)
  | fuel + 1, s, batch, seenDomains, dropped =>
    if batch.length < 5 then
      match nextQueue s with
      | none => (batch, dropped, s)
      | some (u, h, s') =>
        if !seenDomains.contains h && !hasSeen s' u && policy h then
          buildBatchAux policy fuel s' (batch ++ [(u, h)]) (seenDomains ++ [h]) dropped
        else
          buildBatchAux policy fuel s' batch seenDomains (dropped ++ [u])
    else (batch, dropped, s)

/-- The sequential processing phase of one engine-loop iteration
(`src/traits.rs` lines 140–206): for each batch URL, the fetch oracle
returns the page's outgoing links on success (`None` for any per-URL
failure, which the engine logs and skips); on success the engine saves the
page, marks it visited and enqueues the links. -/
def processBatch (fetchOracle : Str → Option (List (Str × Str)))
    (batch : List (Str × Str)) (s : EngineState) : EngineState :=
  batch.foldl
    (fun s b =>
      match fetchOracle b.1 with
      | none => s
      | some links => addToQueue (markVisited (savePage s b.1) b.1) links)
    s

/-- Result of one iteration of the engine loop. -/
inductive IterResult where
  | queueEmpty (s : EngineState)
  | skipped (u : Str) (s : EngineState)
  | processed (batch : List (Str × Str)) (dropped : List Str) (s : EngineState)
deriving Repr, DecidableEq

/-- One iteration of the shared engine loop (`src/traits.rs` lines 51–207):
pop a URL; skip it when the robot policy denies it or it was already seen
(`continue`); otherwise build the cross-host batch and process it.  The
robots.txt fetch-and-cache step only mutates the robot cache and delay
maps, which this state does not observe. -/
def engineIteration (policy : Str → Bool)
    (fetchOracle : Str → Option (List (Str × Str))) (s : EngineState) : IterResult :=
  match nextQueue s with
  | none => .queueEmpty s
  | some (u, h, s1) =>
    if !policy h then .skipped u s1
    else if hasSeen s1 u then .skipped u s1
    else
      let r := buildBatchAux policy s1.frontier.length s1 [(u, h)] [h] []
      .processed r.1 r.2.1 (processBatch fetchOracle r.1 r.2.2)

/-- Status of the frontier entry with a given URL. -/
def statusOf (s : EngineState) (u : Str) : Option EntryStatus :=
  (s.frontier.find? (fun e => e.url == u)).map (·.status)

/-- Generic first-strict-max fold shared by
`Robot::find_longest_matching_rule` and the prefix stage of
`Robot::find_group`: keep the first element whose value strictly exceeds
every earlier kept value (so a value of 0 is never kept). -/
def pickMax {α : Type} (pred : α → Bool) (val : α → Nat) (l : List α) :
    Option α × Nat :=
  l.foldl
    (fun acc a => if pred a && decide (val a > acc.2) then (some a, val a) else acc)
    (none, 0)

/-! ## Concrete inputs used by individual claims -/

/-- The i-th URL of a concrete redirect chain of pairwise distinct URLs. -/
def c2url (i : Nat) : Str := "http://host".toList ++ natToStr i ++ "/".toList

/-- A concrete chain of `n` 302 responses redirecting to `c2url 1 … c2url n`. -/
def c2chain (n : Nat) : List NetResult :=
  (List.range n).map (fun i => redirectResp 302 (c2url (i + 1)))

/-- A 150-character anchor text (exceeding the 100-character truncation the
spec prescribes). -/
def longText : Str := List.replicate 150 'a'

/-- Invariant carried by the accumulator of `pickMax`. -/
def PickAcc {α : Type} (pred : α → Bool) (val : α → Nat) (acc : Option α × Nat) : Prop :=
  match acc.1 with
  | some x => acc.2 = val x ∧ pred x = true ∧ 0 < acc.2
  | none => acc.2 = 0

/-! # Theorems -/

/-! ## Fetch state machine lemmas -/

/-- With `redirects_remaining = 0` the loop fails at its top, before any
request is sent. -/
theorem fetchLoop_zero (resolve : Str → Str → Option Str) (responses : List NetResult)
    (url : Str) (rc d : Nat) (sleeps : List Nat) :
    fetchLoop resolve responses url 0 rc d sleeps = (.tooManyRedirects, sleeps) := by
  rw [fetchLoop.eq_def]
  simp

/-- A `500`/`503` response: while retries remain, sleep the current backoff,
double it, consume one retry, and retry the unchanged URL; otherwise fail
`ServerError` with the response's status. -/
theorem fetchLoop_server (resolve : Str → Str → Option Str) (st : Nat)
    (rest : List NetResult) (url : Str) (m rc d : Nat) (sleeps : List Nat)
    (hst : st = 500 ∨ st = 503) (hm : m ≠ 0) :
    fetchLoop resolve (serverResp st :: rest) url m rc d sleeps
      = if rc < 3 then fetchLoop resolve rest url m (rc + 1) (d * 2) (sleeps ++ [d])
        else (.serverError st, sleeps) := by
  rw [fetchLoop.eq_def]
  rcases hst with rfl | rfl <;> simp [serverResp, getHeader, hm]

/-- A `301`/`302` response with a resolvable `Location`: decrement the
redirect budget, reset the retry counter, continue at the new URL. -/
theorem fetchLoop_redirect (resolve : Str → Str → Option Str) (st : Nat) (loc u : Str)
    (rest : List NetResult) (url : Str) (m rc d : Nat) (sleeps : List Nat)
    (hst : st = 301 ∨ st = 302) (hm : m ≠ 0) (hres : resolve url loc = some u) :
    fetchLoop resolve (redirectResp st loc :: rest) url m rc d sleeps
      = fetchLoop resolve rest u (m - 1) 0 d sleeps := by
  rw [fetchLoop.eq_def]
  rcases hst with rfl | rfl <;> simp [redirectResp, getHeader, hm, hres]

/-- A `200` response: require the Content-Type header, then succeed with the
current URL as `final_url` — with no check of the header's value. -/
theorem fetchLoop_ok (resolve : Str → Str → Option Str) (headers : List (Str × Str))
    (body : Str) (rest : List NetResult) (url : Str) (m rc d : Nat) (sleeps : List Nat)
    (hm : m ≠ 0) :
    fetchLoop resolve (.resp { status := 200, headers := headers, body := body } :: rest)
        url m rc d sleeps
      = match getHeader headers "Content-Type".toList with
        | none => (.missingContentType, sleeps)
        | some ct => (.success url ct body, sleeps) := by
  rw [fetchLoop.eq_def]
  simp [hm]

/-- A chain of `301`/`302` responses to absolute URLs consumes one unit of
redirect budget per hop; the budget is checked at the top of the loop, so a
chain as long as the budget already fails `TooManyRedirects` without the
response after the chain ever being requested. -/
theorem fetchLoop_redirect_chain (st : Nat) (hst : st = 301 ∨ st = 302) :
    ∀ (locs : List Str) (rest : List NetResult) (url : Str) (m d : Nat) (sleeps : List Nat),
      fetchLoop resolveAbs (locs.map (redirectResp st) ++ rest) url m 0 d sleeps
        = if m ≤ locs.length then (.tooManyRedirects, sleeps)
          else fetchLoop resolveAbs rest (locs.getLastD url) (m - locs.length) 0 d sleeps
  | [], rest, url, m, d, sleeps => by
    cases m with
    | zero => simp [fetchLoop_zero]
    | succ m' => simp
  | loc :: ls, rest, url, m, d, sleeps => by
    cases m with
    | zero => simp [fetchLoop_zero]
    | succ m' =>
      rw [List.map_cons, List.cons_append,
        fetchLoop_redirect resolveAbs st loc loc _ url _ 0 d sleeps hst (by simp) rfl,
        Nat.succ_sub_one, fetchLoop_redirect_chain st hst ls rest loc m' d sleeps]
      simp only [List.length_cons, List.getLastD_cons, Nat.add_le_add_iff_right,
        Nat.add_sub_add_right]

/-- A `200` response in `StdOutCrawler::fetch_page`: a present Content-Type
lacking `text/html` fails `notHtml`; any other 200 — a missing Content-Type
included — returns the response. -/
theorem stdoutFetchLoop_ok (resolve : Str → Str → Option Str) (headers : List (Str × Str))
    (body : Str) (rest : List NetResult) (url : Str) (m rc d : Nat) (sleeps : List Nat)
    (hm : m ≠ 0) :
    stdoutFetchLoop resolve
        (.resp { status := 200, headers := headers, body := body } :: rest) url m rc d sleeps
      = match getHeader headers "Content-Type".toList with
        | some ct =>
          if findSub ct "text/html".toList = none then (.notHtml, sleeps)
          else (.ok { status := 200, headers := headers, body := body }, sleeps)
        | none => (.ok { status := 200, headers := headers, body := body }, sleeps) := by
  rw [stdoutFetchLoop.eq_def]
  simp [hm]

/-- A `200` response built by `okResp` succeeds with the current URL, its
Content-Type and its body. -/
theorem fetchLoop_okResp (resolve : Str → Str → Option Str) (ct body : Str)
    (rest : List NetResult) (url : Str) (m rc d : Nat) (sleeps : List Nat)
    (hm : m ≠ 0) :
    fetchLoop resolve (okResp ct body :: rest) url m rc d sleeps
      = (.success url ct body, sleeps) := by
  rw [fetchLoop.eq_def]
  simp [okResp, getHeader, hm]

/-! ## C2 — redirect limit -/

/-- C2 counterexample: a chain of **5** consecutive 302 responses to distinct
URLs ending in `200 OK` fails with `TooManyRedirects` — the claim says this
chain succeeds with `final_url` equal to the last URL.  The budget of 5 is
consumed by the 5 redirects and the loop-top check fires before the final
URL is ever requested. -/
theorem c2_counterexample :
    (fetchedPageFetch resolveAbs (c2chain 5 ++ [okResp "text/html".toList "b".toList])
        (c2url 0)).1
      = FetchOutcome.tooManyRedirects := by decide

/-- C2 (amended): a chain of 6 consecutive 301/302 redirects to distinct
URLs ending in `200 OK` fails with `TooManyRedirects` — as does any chain of
5 or more; a chain of **4** such redirects ending in `200 OK` succeeds with
`final_url` equal to the last URL of the chain. -/
theorem c2_amended :
    (∀ (st : Nat) (locs : List Str) (rest : List NetResult) (url : Str)
        (d : Nat) (sleeps : List Nat),
      st = 301 ∨ st = 302 → 5 ≤ locs.length →
        fetchLoop resolveAbs (locs.map (redirectResp st) ++ rest) url 5 0 d sleeps
          = (.tooManyRedirects, sleeps))
    ∧ (∀ (st : Nat) (locs : List Str) (ct body url : Str) (d : Nat) (sleeps : List Nat),
      st = 301 ∨ st = 302 → locs.length = 4 →
        fetchLoop resolveAbs (locs.map (redirectResp st) ++ [okResp ct body]) url 5 0 d sleeps
          = (.success (locs.getLastD url) ct body, sleeps)) := by
  constructor
  · intro st locs rest url d sleeps hst h5
    rw [fetchLoop_redirect_chain st hst]
    simp [h5]
  · intro st locs ct body url d sleeps hst h4
    rw [fetchLoop_redirect_chain st hst, if_neg (by omega),
      fetchLoop_okResp resolveAbs ct body [] (locs.getLastD url) _ 0 d sleeps (by omega)]

/-- Closed instance of `c2_amended`: the 6-chain fails, the 4-chain succeeds
at its last URL. -/
theorem c2_amended_witness :
    ((302 = 301 ∨ 302 = 302)
      ∧ 5 ≤ (["u1", "u2", "u3", "u4", "u5", "u6"].map String.toList).length
      ∧ fetchLoop resolveAbs
          ((["u1", "u2", "u3", "u4", "u5", "u6"].map String.toList).map (redirectResp 302)
            ++ [okResp "text/html".toList "b".toList]) "u0".toList 5 0 500 []
          = (.tooManyRedirects, []))
    ∧ ((301 = 301 ∨ 301 = 302)
      ∧ (["u1", "u2", "u3", "u4"].map String.toList).length = 4
      ∧ fetchLoop resolveAbs
          ((["u1", "u2", "u3", "u4"].map String.toList).map (redirectResp 301)
            ++ [okResp "text/html".toList "b".toList]) "u0".toList 5 0 500 []
          = (.success "u4".toList "text/html".toList "b".toList, [])) :=
  ⟨⟨Or.inr rfl, by decide,
      c2_amended.1 302 (["u1", "u2", "u3", "u4", "u5", "u6"].map String.toList)
        [okResp "text/html".toList "b".toList] "u0".toList 500 [] (Or.inr rfl) (by decide)⟩,
    ⟨Or.inl rfl, by decide,
      c2_amended.2 301 (["u1", "u2", "u3", "u4"].map String.toList)
        "text/html".toList "b".toList "u0".toList 500 [] (Or.inl rfl) (by decide)⟩⟩

/-! ## C3 — Content-Type handling on 200 OK -/

/-- C3 counterexample: `FetchedPage::fetch` succeeds on a `200 OK` whose
Content-Type is `application/pdf` — it never fails `NotHtml`, contradicting
the claim that a Content-Type not containing `text/html` fails. -/
theorem c3_counterexample :
    (fetchedPageFetch resolveAbs [okResp "application/pdf".toList "b".toList]
        "http://h/".toList).1
      = FetchOutcome.success "http://h/".toList "application/pdf".toList "b".toList := by
  decide

/-- C3 (amended): on a `200 OK`, `FetchedPage::fetch` requires the
Content-Type header to be present (failing otherwise) and returns the body
and `final_url` (the current URL) for **any** Content-Type value; the
`text/html` check lives in `StdOutCrawler::fetch_page`, which fails
`NotHtml` only when a *present* Content-Type does not contain `text/html`
and accepts a response with no Content-Type header. -/
theorem c3_amended :
    (∀ (resolve : Str → Str → Option Str) (headers : List (Str × Str)) (ct body : Str)
        (rest : List NetResult) (url : Str) (m rc d : Nat) (sleeps : List Nat),
      m ≠ 0 → getHeader headers "Content-Type".toList = some ct →
        fetchLoop resolve (.resp { status := 200, headers := headers, body := body } :: rest)
            url m rc d sleeps
          = (.success url ct body, sleeps))
    ∧ (∀ (resolve : Str → Str → Option Str) (headers : List (Str × Str)) (body : Str)
        (rest : List NetResult) (url : Str) (m rc d : Nat) (sleeps : List Nat),
      m ≠ 0 → getHeader headers "Content-Type".toList = none →
        fetchLoop resolve (.resp { status := 200, headers := headers, body := body } :: rest)
            url m rc d sleeps
          = (.missingContentType, sleeps))
    ∧ (∀ (resolve : Str → Str → Option Str) (headers : List (Str × Str)) (ct body : Str)
        (rest : List NetResult) (url : Str) (m rc d : Nat) (sleeps : List Nat),
      m ≠ 0 → getHeader headers "Content-Type".toList = some ct →
      (findSub ct "text/html".toList).isSome = false →
        stdoutFetchLoop resolve
            (.resp { status := 200, headers := headers, body := body } :: rest)
            url m rc d sleeps
          = (.notHtml, sleeps))
    ∧ (∀ (resolve : Str → Str → Option Str) (headers : List (Str × Str)) (ct body : Str)
        (rest : List NetResult) (url : Str) (m rc d : Nat) (sleeps : List Nat),
      m ≠ 0 → getHeader headers "Content-Type".toList = some ct →
      (findSub ct "text/html".toList).isSome = true →
        stdoutFetchLoop resolve
            (.resp { status := 200, headers := headers, body := body } :: rest)
            url m rc d sleeps
          = (.ok { status := 200, headers := headers, body := body }, sleeps))
    ∧ (∀ (resolve : Str → Str → Option Str) (headers : List (Str × Str)) (body : Str)
        (rest : List NetResult) (url : Str) (m rc d : Nat) (sleeps : List Nat),
      m ≠ 0 → getHeader headers "Content-Type".toList = none →
        stdoutFetchLoop resolve
            (.resp { status := 200, headers := headers, body := body } :: rest)
            url m rc d sleeps
          = (.ok { status := 200, headers := headers, body := body }, sleeps)) := by
  refine ⟨?_, ?_, ?_, ?_, ?_⟩
  · intro resolve headers ct body rest url m rc d sleeps hm hct
    rw [fetchLoop_ok resolve headers body rest url m rc d sleeps hm, hct]
  · intro resolve headers body rest url m rc d sleeps hm hct
    rw [fetchLoop_ok resolve headers body rest url m rc d sleeps hm, hct]
  · intro resolve headers ct body rest url m rc d sleeps hm hct hinf
    rw [stdoutFetchLoop_ok resolve headers body rest url m rc d sleeps hm, hct]
    have hfind : findSub ct ['t', 'e', 'x', 't', '/', 'h', 't', 'm', 'l'] = none := by
      rcases h : findSub ct "text/html".toList with _ | j
      · exact h
      · rw [h] at hinf
        simp at hinf
    simp [hfind]
  · intro resolve headers ct body rest url m rc d sleeps hm hct hinf
    rw [stdoutFetchLoop_ok resolve headers body rest url m rc d sleeps hm, hct]
    rcases h : findSub ct "text/html".toList with _ | j
    · rw [h] at hinf
      simp at hinf
    · have h' : findSub ct ['t', 'e', 'x', 't', '/', 'h', 't', 'm', 'l'] = some j := h
      simp [h']
  · intro resolve headers body rest url m rc d sleeps hm hct
    rw [stdoutFetchLoop_ok resolve headers body rest url m rc d sleeps hm, hct]

/-- Closed instance of `c3_amended`: a PDF response passes
`FetchedPage::fetch` but fails `StdOutCrawler::fetch_page`, and a response
without Content-Type fails the former but passes the latter. -/
theorem c3_amended_witness :
    ((1 : Nat) ≠ 0
      ∧ getHeader [("Content-Type".toList, "application/pdf".toList)] "Content-Type".toList
          = some "application/pdf".toList
      ∧ (findSub "application/pdf".toList "text/html".toList).isSome = false
      ∧ fetchLoop resolveAbs
          [.resp { status := 200,
                   headers := [("Content-Type".toList, "application/pdf".toList)],
                   body := "b".toList }] "u".toList 1 0 500 []
          = (.success "u".toList "application/pdf".toList "b".toList, [])
      ∧ stdoutFetchLoop resolveAbs
          [.resp { status := 200,
                   headers := [("Content-Type".toList, "application/pdf".toList)],
                   body := "b".toList }] "u".toList 1 0 100 []
          = (.notHtml, []))
    ∧ (getHeader ([] : List (Str × Str)) "Content-Type".toList = none
      ∧ fetchLoop resolveAbs
          [.resp { status := 200, headers := [], body := "b".toList }] "u".toList 1 0 500 []
          = (.missingContentType, [])
      ∧ stdoutFetchLoop resolveAbs
          [.resp { status := 200, headers := [], body := "b".toList }] "u".toList 1 0 100 []
          = (.ok { status := 200, headers := [], body := "b".toList }, [])) :=
  ⟨⟨by decide, by decide, by decide,
      c3_amended.1 resolveAbs [("Content-Type".toList, "application/pdf".toList)]
        "application/pdf".toList "b".toList [] "u".toList 1 0 500 [] (by decide) (by decide),
      (c3_amended.2.2).1 resolveAbs [("Content-Type".toList, "application/pdf".toList)]
        "application/pdf".toList "b".toList [] "u".toList 1 0 100 [] (by decide) (by decide)
        (by decide)⟩,
    ⟨by decide,
      (c3_amended.2).1 resolveAbs [] "b".toList [] "u".toList 1 0 500 [] (by decide) (by decide),
      (c3_amended.2.2.2.2) resolveAbs [] "b".toList [] "u".toList 1 0 100 [] (by decide)
        (by decide)⟩⟩

/-! ## C9 — retry with exponential backoff on 500/503 -/

/-- C9: on a `500`/`503`, while retries remain (the counter starts at 0 with
limit 3) the fetcher sleeps the current backoff — initially 500 ms — doubles
it, consumes one retry, and retries the *same* URL; once the three retries
are consumed, a further `500`/`503` fails `ServerError` with that status.
Concretely, `503, 503, 200` succeeds after sleeps of 500 ms and 1000 ms, and
four consecutive `500`/`503` responses fail. -/
theorem c9_retry_behavior :
    (∀ (resolve : Str → Str → Option Str) (st : Nat) (rest : List NetResult) (url : Str)
        (m rc d : Nat) (sleeps : List Nat),
      (st = 500 ∨ st = 503) → m ≠ 0 → rc < 3 →
        fetchLoop resolve (serverResp st :: rest) url m rc d sleeps
          = fetchLoop resolve rest url m (rc + 1) (d * 2) (sleeps ++ [d]))
    ∧ (∀ (resolve : Str → Str → Option Str) (st : Nat) (rest : List NetResult) (url : Str)
        (m rc d : Nat) (sleeps : List Nat),
      (st = 500 ∨ st = 503) → m ≠ 0 → ¬ rc < 3 →
        fetchLoop resolve (serverResp st :: rest) url m rc d sleeps
          = (.serverError st, sleeps))
    ∧ fetchedPageFetch resolveAbs
        [serverResp 503, serverResp 503, okResp "text/html".toList "b".toList]
        "http://h/".toList
      = (.success "http://h/".toList "text/html".toList "b".toList, [500, 1000])
    ∧ (∀ s1 s2 s3 s4 : Nat,
      (s1 = 500 ∨ s1 = 503) → (s2 = 500 ∨ s2 = 503) →
      (s3 = 500 ∨ s3 = 503) → (s4 = 500 ∨ s4 = 503) →
        fetchedPageFetch resolveAbs
            [serverResp s1, serverResp s2, serverResp s3, serverResp s4] "u".toList
          = (.serverError s4, [500, 1000, 2000])) := by
  refine ⟨?_, ?_, by decide, ?_⟩
  · intro resolve st rest url m rc d sleeps hst hm hrc
    rw [fetchLoop_server resolve st rest url m rc d sleeps hst hm, if_pos hrc]
  · intro resolve st rest url m rc d sleeps hst hm hrc
    rw [fetchLoop_server resolve st rest url m rc d sleeps hst hm, if_neg hrc]
  · intro s1 s2 s3 s4 h1 h2 h3 h4
    unfold fetchedPageFetch
    rw [fetchLoop_server resolveAbs s1 _ _ 5 0 500 [] h1 (by decide), if_pos (by decide)]
    show fetchLoop resolveAbs [serverResp s2, serverResp s3, serverResp s4]
      "u".toList 5 1 1000 [500] = _
    rw [fetchLoop_server resolveAbs s2 _ _ 5 1 1000 [500] h2 (by decide), if_pos (by decide)]
    show fetchLoop resolveAbs [serverResp s3, serverResp s4]
      "u".toList 5 2 2000 [500, 1000] = _
    rw [fetchLoop_server resolveAbs s3 _ _ 5 2 2000 [500, 1000] h3 (by decide),
      if_pos (by decide)]
    show fetchLoop resolveAbs [serverResp s4] "u".toList 5 3 4000 [500, 1000, 2000] = _
    rw [fetchLoop_server resolveAbs s4 _ _ 5 3 4000 [500, 1000, 2000] h4 (by decide),
      if_neg (by decide)]

/-! ## Characterization of the first-strict-max folds -/

/-- Folding the `pickMax` step either leaves the accumulator untouched (and
then nothing in the list beats it) or returns an element of the list that
matched, strictly beat the accumulator and every earlier matching element,
and is at least as large as every later matching element. -/
theorem pickMax_go_spec {α : Type} (pred : α → Bool) (val : α → Nat) :
    ∀ (l : List α) (acc : Option α × Nat), PickAcc pred val acc →
      PickAcc pred val (l.foldl
          (fun acc a => if pred a && decide (val a > acc.2) then (some a, val a) else acc)
          acc)
      ∧ ((l.foldl
            (fun acc a => if pred a && decide (val a > acc.2) then (some a, val a) else acc)
            acc = acc
          ∧ ∀ a ∈ l, pred a = true → val a ≤ acc.2)
        ∨ (∃ x pre post,
            l.foldl
              (fun acc a => if pred a && decide (val a > acc.2) then (some a, val a) else acc)
              acc = (some x, val x)
            ∧ l = pre ++ x :: post ∧ pred x = true ∧ acc.2 < val x
            ∧ (∀ a ∈ pre, pred a = true → val a < val x)
            ∧ (∀ a ∈ post, pred a = true → val a ≤ val x)))
  | [], acc, hacc => ⟨hacc, Or.inl ⟨rfl, by simp⟩⟩
  | a :: t, acc, hacc => by
    rw [List.foldl_cons]
    by_cases hc : (pred a && decide (val a > acc.2)) = true
    · obtain ⟨ha, hgt⟩ := Bool.and_eq_true_iff.mp hc
      have hgt' : acc.2 < val a := of_decide_eq_true hgt
      have hacc' : PickAcc pred val (some a, val a) := ⟨rfl, ha, by omega⟩
      rw [if_pos hc]
      obtain ⟨hinv, hrest⟩ := pickMax_go_spec pred val t (some a, val a) hacc'
      refine ⟨hinv, Or.inr ?_⟩
      rcases hrest with ⟨heq, hall⟩ | ⟨x, pre, post, heq, ht, hx, hbeat, hpre, hpost⟩
      · exact ⟨a, [], t, heq, rfl, ha, hgt', by simp, fun b hb hpb => hall b hb hpb⟩
      · refine ⟨x, a :: pre, post, heq, by rw [ht, List.cons_append], hx, by omega, ?_, hpost⟩
        intro b hb hpb
        rcases List.mem_cons.mp hb with rfl | hb'
        · omega
        · exact hpre b hb' hpb
    · rw [if_neg hc]
      have hle : pred a = true → val a ≤ acc.2 := by
        intro hpa
        by_contra hgt
        exact hc (by simp only [hpa, Bool.true_and, decide_eq_true_eq]; omega)
      obtain ⟨hinv, hrest⟩ := pickMax_go_spec pred val t acc hacc
      refine ⟨hinv, ?_⟩
      rcases hrest with ⟨heq, hall⟩ | ⟨x, pre, post, heq, ht, hx, hbeat, hpre, hpost⟩
      · refine Or.inl ⟨heq, ?_⟩
        intro b hb hpb
        rcases List.mem_cons.mp hb with rfl | hb'
        · exact hle hpb
        · exact hall b hb' hpb
      · refine Or.inr ⟨x, a :: pre, post, heq, by rw [ht, List.cons_append], hx, hbeat, ?_, hpost⟩
        intro b hb hpb
        rcases List.mem_cons.mp hb with rfl | hb'
        · have := hle hpb
          omega
        · exact hpre b hb' hpb

/-- A successful `pickMax` returns a matching element of positive value that
is maximal among matching elements, the earliest such in list order. -/
theorem pickMax_some {α : Type} (pred : α → Bool) (val : α → Nat) (l : List α) (x : α)
    (h : (pickMax pred val l).1 = some x) :
    pred x = true ∧ 0 < val x ∧ (pickMax pred val l).2 = val x
      ∧ (∃ pre post, l = pre ++ x :: post
          ∧ (∀ a ∈ pre, pred a = true → val a < val x)
          ∧ (∀ a ∈ post, pred a = true → val a ≤ val x))
      ∧ (∀ a ∈ l, pred a = true → val a ≤ val x) := by
  obtain ⟨hinv, hrest⟩ := pickMax_go_spec pred val l (none, 0) rfl
  rcases hrest with ⟨heq, _⟩ | ⟨y, pre, post, heq, hl, hy, _, hpre, hpost⟩
  · rw [show pickMax pred val l = l.foldl _ (none, 0) from rfl, heq] at h
    exact absurd h (by simp)
  · have hres : pickMax pred val l = (some y, val y) := heq
    rw [hres] at h
    obtain rfl : y = x := by simpa using h
    refine ⟨hy, ?_, by rw [hres], ⟨pre, post, hl, hpre, hpost⟩, ?_⟩
    · rw [heq] at hinv
      obtain ⟨h1, _, h3⟩ := hinv
      omega
    · intro a ha hpa
      rw [hl] at ha
      rcases List.mem_append.mp ha with ha' | ha'
      · exact Nat.le_of_lt (hpre a ha' hpa)
      · rcases List.mem_cons.mp ha' with rfl | ha''
        · exact Nat.le_refl _
        · exact hpost a ha'' hpa

/-- A failed `pickMax` means every matching element has value 0. -/
theorem pickMax_none {α : Type} (pred : α → Bool) (val : α → Nat) (l : List α)
    (h : (pickMax pred val l).1 = none) :
    ∀ a ∈ l, pred a = true → val a = 0 := by
  obtain ⟨hinv, hrest⟩ := pickMax_go_spec pred val l (none, 0) rfl
  rcases hrest with ⟨heq, hall⟩ | ⟨y, pre, post, heq, _, _, _, _, _⟩
  · intro a ha hpa
    have := hall a ha hpa
    have heq' : pickMax pred val l = (none, 0) := heq
    omega
  · rw [show pickMax pred val l = l.foldl _ (none, 0) from rfl, heq] at h
    exact absurd h (by simp)

/-- `Robot::find_longest_matching_rule` is the `pickMax` fold over rules with
the pattern-match predicate and pattern length as value. -/
theorem flmr_eq_pickMax (rules : List Rule) (path : Str) :
    findLongestMatchingRule rules path
      = (pickMax (fun r => matchesPattern r.pattern path) (fun r => r.pattern.length)
          rules).1 := rfl

/-- A robot whose single group is the wildcard group is selected for every
user-agent: either by the exact stage (for the agent `*` itself) or by the
wildcard stage (the prefix stage never keeps `*`). -/
theorem findGroup_single_star (g : Group) (smaps : List Str) (ua : Str)
    (hg : g.user_agents = [['*']]) :
    Robot.findGroup ⟨[g], smaps⟩ ua = some g := by
  have hstar : lowerStr ['*'] = ['*'] := by decide
  by_cases hx : (lowerStr ['*'] == lowerStr ua) = true
  · simp [Robot.findGroup, hg, hx]
  · simp [Robot.findGroup, hg, hstar, hx]
    split
    · next g2 heq =>
        by_cases h2 : ['*'] = lowerStr ua
        · simp [h2] at heq
          rw [heq]
        · simp [h2] at heq
    · rfl

/-! ## C1 — longest-pattern rule selection -/

/-- C1 counterexample: with the group
`User-agent: *` / `Disallow: /a` / `Allow: /a`, both patterns match `/a` at
equal (longest) length, and the decision is **deny** — the first rule in file
order wins, not `allow` as the claim states.  Moreover a lone empty
`Disallow:` pattern matches every path and is the longest matching rule, yet
the path stays allowed — a rule of length 0 can never be selected. -/
theorem c1_counterexample :
    (Robot.new "User-agent: *\nDisallow: /a\nAllow: /a".toList).allowPath "/a".toList
        "Bot".toList = false
      ∧ (Robot.new "User-agent: *\nDisallow:".toList).allowPath "/x".toList
          "Bot".toList = true
      ∧ matchesPattern [] "/x".toList = true := by
  decide

/-- C1 (amended): among the rules of the selected group whose pattern
matches the path, the decision belongs to the earliest rule of maximal
**positive** pattern length — ties between equally long patterns are broken
in favor of the rule that appears first, not in favor of `allow`, and rules
with empty patterns are never selected.  When no rule with a nonempty
pattern matches (or no group is selected), the path is allowed.  For the
file `User-agent: * / Disallow: / / Allow: /public/`, `allow` returns true
for path `/public/x` and false for `/private`, for any agent. -/
theorem c1_amended :
    (∀ (rules : List Rule) (path : Str) (r : Rule),
      findLongestMatchingRule rules path = some r →
        matchesPattern r.pattern path = true ∧ 0 < r.pattern.length
          ∧ (∀ r' ∈ rules, matchesPattern r'.pattern path = true →
              r'.pattern.length ≤ r.pattern.length)
          ∧ ∃ pre post, rules = pre ++ r :: post
              ∧ ∀ r' ∈ pre, matchesPattern r'.pattern path = true →
                  r'.pattern.length < r.pattern.length)
    ∧ (∀ (rules : List Rule) (path : Str),
      findLongestMatchingRule rules path = none →
        ∀ r ∈ rules, matchesPattern r.pattern path = true → r.pattern.length = 0)
    ∧ (∀ (r : Robot) (path ua : Str), r.findGroup ua = none →
        r.allowPath path ua = true)
    ∧ (∀ (r : Robot) (g : Group) (path ua : Str), r.findGroup ua = some g →
        findLongestMatchingRule g.rules path = none → r.allowPath path ua = true)
    ∧ (∀ (r : Robot) (g : Group) (rule : Rule) (path ua : Str),
        r.findGroup ua = some g → findLongestMatchingRule g.rules path = some rule →
          r.allowPath path ua = rule.allow)
    ∧ (∀ ua : Str,
        (Robot.new "User-agent: *\nDisallow: /\nAllow: /public/".toList).allowPath
            "/public/x".toList ua = true
          ∧ (Robot.new "User-agent: *\nDisallow: /\nAllow: /public/".toList).allowPath
              "/private".toList ua = false) := by
  refine ⟨?_, ?_, ?_, ?_, ?_, ?_⟩
  · intro rules path r h
    rw [flmr_eq_pickMax] at h
    obtain ⟨hp, hpos, _, ⟨pre, post, hl, hpre, _⟩, hmax⟩ :=
      pickMax_some (fun r => matchesPattern r.pattern path) (fun r => r.pattern.length)
        rules r h
    exact ⟨hp, hpos, hmax, pre, post, hl, hpre⟩
  · intro rules path h
    rw [flmr_eq_pickMax] at h
    exact pickMax_none (fun r => matchesPattern r.pattern path)
      (fun r => r.pattern.length) rules h
  · intro r path ua h
    simp [Robot.allowPath, h]
  · intro r g path ua hg hr
    simp [Robot.allowPath, hg, hr]
  · intro r g rule path ua hg hr
    simp [Robot.allowPath, hg, hr]
  · intro ua
    have hparse : Robot.new "User-agent: *\nDisallow: /\nAllow: /public/".toList
        = ⟨[⟨[['*']], [⟨"/".toList, false⟩, ⟨"/public/".toList, true⟩], none, none⟩], []⟩ := by
      decide
    constructor <;>
      · rw [Robot.allowPath, hparse, findGroup_single_star _ _ ua rfl]
        decide

/-- Closed instance of `c1_amended`: the longest matching rule `/ab` is
selected over `/a`, and the scenario file decides `/public/x` and `/private`
as amended. -/
theorem c1_amended_witness :
    findLongestMatchingRule [⟨"/a".toList, false⟩, ⟨"/ab".toList, true⟩] "/ab".toList
        = some ⟨"/ab".toList, true⟩
      ∧ matchesPattern "/ab".toList "/ab".toList = true
      ∧ 0 < ("/ab".toList : Str).length
      ∧ (∀ r' ∈ [Rule.mk "/a".toList false, Rule.mk "/ab".toList true],
          matchesPattern r'.pattern "/ab".toList = true →
            r'.pattern.length ≤ ("/ab".toList : Str).length)
      ∧ (Robot.new "User-agent: *\nDisallow: /\nAllow: /public/".toList).allowPath
          "/public/x".toList "Bot".toList = true
      ∧ (Robot.new "User-agent: *\nDisallow: /\nAllow: /public/".toList).allowPath
          "/private".toList "OtherBot".toList = false := by
  have h1 := c1_amended.1 [⟨"/a".toList, false⟩, ⟨"/ab".toList, true⟩] "/ab".toList
    ⟨"/ab".toList, true⟩ (by decide)
  have h2 := c1_amended.2.2.2.2.2 "Bot".toList
  have h3 := c1_amended.2.2.2.2.2 "OtherBot".toList
  exact ⟨by decide, h1.1, h1.2.1, h1.2.2.1, h2.1, h3.2⟩

/-- `find?` returns the first element satisfying the predicate. -/
theorem find?_first {α : Type} (p : α → Bool) (pre post : List α) (x : α)
    (hx : p x = true) (hpre : ∀ y ∈ pre, p y = false) :
    (pre ++ x :: post).find? p = some x := by
  induction pre with
  | nil => simp [List.find?_cons_of_pos, hx]
  | cons a t ih =>
    rw [List.cons_append, List.find?_cons_of_neg]
    · exact ih (fun y hy => hpre y (List.mem_cons_of_mem a hy))
    · simp [hpre a (List.mem_cons_self a t)]

/-- The nested prefix fold of `Robot::find_group` agrees with the `pickMax`
step applied to the (group, agent) pairs of one group, in agent order:
the nested accumulator is the pair accumulator with the stored pair
projected to its group. -/
theorem findGroup_fold_inner (ual : Str) (g : Group) :
    ∀ (agents : List Str) (accP : Option (Group × Str) × Nat),
      agents.foldl
        (fun (acc : Option Group × Nat) a =>
          if ((lowerStr a).isPrefixOf ual && lowerStr a != ['*'])
              && decide ((lowerStr a).length > acc.2) then
            (some g, (lowerStr a).length)
          else acc)
        (accP.1.map Prod.fst, accP.2)
      = (((agents.map (fun a => (g, a))).foldl
            (fun (acc : Option (Group × Str) × Nat) pa =>
              if ((lowerStr pa.2).isPrefixOf ual && lowerStr pa.2 != ['*'])
                  && decide ((lowerStr pa.2).length > acc.2) then
                (some pa, (lowerStr pa.2).length)
              else acc)
            accP).1.map Prod.fst,
          ((agents.map (fun a => (g, a))).foldl
            (fun (acc : Option (Group × Str) × Nat) pa =>
              if ((lowerStr pa.2).isPrefixOf ual && lowerStr pa.2 != ['*'])
                  && decide ((lowerStr pa.2).length > acc.2) then
                (some pa, (lowerStr pa.2).length)
              else acc)
            accP).2)
  | [], accP => rfl
  | a :: t, accP => by
    rw [List.foldl_cons, List.map_cons, List.foldl_cons]
    by_cases hc : (((lowerStr a).isPrefixOf ual && lowerStr a != ['*'])
        && decide ((lowerStr a).length > accP.2)) = true
    · show t.foldl _ (if ((lowerStr a).isPrefixOf ual && lowerStr a != ['*'])
            && decide ((lowerStr a).length > accP.2) then _ else _)
        = _
      rw [if_pos hc, if_pos hc]
      exact findGroup_fold_inner ual g t ((some (g, a), (lowerStr a).length))
    · show t.foldl _ (if ((lowerStr a).isPrefixOf ual && lowerStr a != ['*'])
            && decide ((lowerStr a).length > accP.2) then _ else _)
        = _
      rw [if_neg hc, if_neg hc]
      exact findGroup_fold_inner ual g t accP

/-- The nested prefix fold of `Robot::find_group` over all groups is the
`pickMax` fold over (group, agent) pairs in scan order, with the stored
pair projected to its group. -/
theorem findGroup_fold_eq (ual : Str) :
    ∀ (groups : List Group) (accP : Option (Group × Str) × Nat),
      groups.foldl
        (fun (acc : Option Group × Nat) g =>
          g.user_agents.foldl
            (fun acc a =>
              if ((lowerStr a).isPrefixOf ual && lowerStr a != ['*'])
                  && decide ((lowerStr a).length > acc.2) then
                (some g, (lowerStr a).length)
              else acc)
            acc)
        (accP.1.map Prod.fst, accP.2)
      = (((groups.flatMap (fun g => g.user_agents.map (fun a => (g, a)))).foldl
            (fun (acc : Option (Group × Str) × Nat) pa =>
              if ((lowerStr pa.2).isPrefixOf ual && lowerStr pa.2 != ['*'])
                  && decide ((lowerStr pa.2).length > acc.2) then
                (some pa, (lowerStr pa.2).length)
              else acc)
            accP).1.map Prod.fst,
          ((groups.flatMap (fun g => g.user_agents.map (fun a => (g, a)))).foldl
            (fun (acc : Option (Group × Str) × Nat) pa =>
              if ((lowerStr pa.2).isPrefixOf ual && lowerStr pa.2 != ['*'])
                  && decide ((lowerStr pa.2).length > acc.2) then
                (some pa, (lowerStr pa.2).length)
              else acc)
            accP).2)
  | [], accP => rfl
  | g :: t, accP => by
    rw [List.foldl_cons, List.flatMap_cons, List.foldl_append,
      findGroup_fold_inner ual g g.user_agents accP]
    exact findGroup_fold_eq ual t
      ((g.user_agents.map (fun a => (g, a))).foldl
        (fun (acc : Option (Group × Str) × Nat) pa =>
          if ((lowerStr pa.2).isPrefixOf ual && lowerStr pa.2 != ['*'])
              && decide ((lowerStr pa.2).length > acc.2) then
            (some pa, (lowerStr pa.2).length)
          else acc)
        accP)

/-- Specialization of `findGroup_fold_eq` to the initial accumulator,
phrased through `pickMax`. -/
theorem findGroup_fold_none (ual : Str) (groups : List Group) :
    groups.foldl
        (fun (acc : Option Group × Nat) g =>
          g.user_agents.foldl
            (fun acc a =>
              if ((lowerStr a).isPrefixOf ual && lowerStr a != ['*'])
                  && decide ((lowerStr a).length > acc.2) then
                (some g, (lowerStr a).length)
              else acc)
            acc)
        (none, 0)
      = ((pickMax
            (fun pa : Group × Str => (lowerStr pa.2).isPrefixOf ual && lowerStr pa.2 != ['*'])
            (fun pa : Group × Str => (lowerStr pa.2).length)
            (groups.flatMap (fun g => g.user_agents.map (fun a => (g, a))))).1.map Prod.fst,
         (pickMax
            (fun pa : Group × Str => (lowerStr pa.2).isPrefixOf ual && lowerStr pa.2 != ['*'])
            (fun pa : Group × Str => (lowerStr pa.2).length)
            (groups.flatMap (fun g => g.user_agents.map (fun a => (g, a))))).2) :=
  findGroup_fold_eq ual groups (none, 0)

/-- `Robot::find_group` characterized by its three stages: the first group
with an exact case-insensitive agent; else the group of the `pickMax`
(group, agent) pair over the prefix candidates; else the first group with a
literal `*` agent. -/
theorem findGroup_eq (r : Robot) (ua : Str) :
    r.findGroup ua
      = (match r.groups.find?
            (fun g => g.user_agents.any (fun a => lowerStr a == lowerStr ua)) with
         | some g => some g
         | none =>
           match (pickMax
               (fun pa : Group × Str =>
                 (lowerStr pa.2).isPrefixOf (lowerStr ua) && lowerStr pa.2 != ['*'])
               (fun pa : Group × Str => (lowerStr pa.2).length)
               (r.groups.flatMap (fun g => g.user_agents.map (fun a => (g, a))))).1.map
               Prod.fst with
           | some g => some g
           | none => r.groups.find? (fun g => g.user_agents.any (fun a => a == ['*']))) := by
  have hzeta : r.findGroup ua
      = (match r.groups.find?
            (fun g => g.user_agents.any (fun a => lowerStr a == lowerStr ua)) with
         | some g => some g
         | none =>
           match (r.groups.foldl
              (fun (acc : Option Group × Nat) g =>
                g.user_agents.foldl
                  (fun acc a =>
                    if ((lowerStr a).isPrefixOf (lowerStr ua) && lowerStr a != ['*'])
                        && decide ((lowerStr a).length > acc.2) then
                      (some g, (lowerStr a).length)
                    else acc)
                  acc)
              (none, 0)).1 with
           | some g => some g
           | none =>
             r.groups.find? (fun g => g.user_agents.any (fun a => a == ['*']))) := rfl
  rw [hzeta, findGroup_fold_none (lowerStr ua) r.groups]

/-! ## C8 — group selection order -/

/-- C8 counterexample: for the file `User-agent:` (empty token) /
`User-agent: *` / `Disallow: /`, the claim's second stage should pick the
empty-token group for agent `Zed` (the empty token is trivially the longest
case-insensitive prefix candidate besides `*`), whose empty rule list allows
everything; the code skips zero-length prefix tokens, falls through to the
wildcard group, and denies `/x`. -/
theorem c8_counterexample :
    (Robot.new "User-agent:\nUser-agent: *\nDisallow: /".toList).allowPath "/x".toList
        "Zed".toList = false
      ∧ (Robot.new "User-agent:\nUser-agent: *\nDisallow: /".toList).groups.map
          (fun g => g.user_agents) = [[[]], [['*']]]
      ∧ (Robot.new "User-agent:\nUser-agent: *\nDisallow: /".toList).groups.map
          (fun g => g.rules) = [[], [⟨"/".toList, false⟩]]
      ∧ (lowerStr []).isPrefixOf (lowerStr "Zed".toList) = true := by
  decide

/-- C8 (amended): group selection proceeds in this order — a group with an
agent token exactly equal to the user-agent (case-insensitive), the first
such group; else the group whose agent token is the longest **nonempty**
case-insensitive prefix of the user-agent, excluding `*` (an empty token is
never selected); else the first group whose agents contain `*`; else no
group, in which case every path is allowed.  With groups for `*`
(disallow `/`) and `GoodBot` (no rules), `/x` is allowed for GoodBot and
denied for OtherBot. -/
theorem c8_amended :
    (∀ (r : Robot) (ua : Str) (pre : List Group) (g : Group) (post : List Group),
      r.groups = pre ++ g :: post →
      g.user_agents.any (fun a => lowerStr a == lowerStr ua) = true →
      (∀ g' ∈ pre, g'.user_agents.any (fun a => lowerStr a == lowerStr ua) = false) →
      r.findGroup ua = some g)
    ∧ (∀ (r : Robot) (ua : Str),
      (∀ g' ∈ r.groups, g'.user_agents.any (fun a => lowerStr a == lowerStr ua) = false) →
      (∃ g ∈ r.groups, ∃ a ∈ g.user_agents,
        ((lowerStr a).isPrefixOf (lowerStr ua) && lowerStr a != ['*']) = true ∧ a ≠ []) →
      ∃ g a, r.findGroup ua = some g ∧ a ∈ g.user_agents
        ∧ ((lowerStr a).isPrefixOf (lowerStr ua) && lowerStr a != ['*']) = true
        ∧ ∀ g' ∈ r.groups, ∀ a' ∈ g'.user_agents,
            ((lowerStr a').isPrefixOf (lowerStr ua) && lowerStr a' != ['*']) = true →
              a'.length ≤ a.length)
    ∧ (∀ (r : Robot) (ua : Str) (pre : List Group) (g : Group) (post : List Group),
      (∀ g' ∈ r.groups, g'.user_agents.any (fun a => lowerStr a == lowerStr ua) = false) →
      (∀ g' ∈ r.groups, ∀ a ∈ g'.user_agents,
        ((lowerStr a).isPrefixOf (lowerStr ua) && lowerStr a != ['*']) = true → a = []) →
      r.groups = pre ++ g :: post →
      g.user_agents.any (fun a => a == ['*']) = true →
      (∀ g' ∈ pre, g'.user_agents.any (fun a => a == ['*']) = false) →
      r.findGroup ua = some g)
    ∧ (∀ (r : Robot) (ua : Str),
      (∀ g' ∈ r.groups, g'.user_agents.any (fun a => lowerStr a == lowerStr ua) = false) →
      (∀ g' ∈ r.groups, ∀ a ∈ g'.user_agents,
        ((lowerStr a).isPrefixOf (lowerStr ua) && lowerStr a != ['*']) = true → a = []) →
      (∀ g' ∈ r.groups, g'.user_agents.any (fun a => a == ['*']) = false) →
      r.findGroup ua = none ∧ ∀ path, r.allowPath path ua = true)
    ∧ ((Robot.new "User-agent: *\nDisallow: /\nUser-agent: GoodBot".toList).allowPath
          "/x".toList "GoodBot".toList = true
        ∧ (Robot.new "User-agent: *\nDisallow: /\nUser-agent: GoodBot".toList).allowPath
            "/x".toList "OtherBot".toList = false) := by
  refine ⟨?_, ?_, ?_, ?_, by decide⟩
  · intro r ua pre g post hgs hx hpre
    rw [findGroup_eq, hgs, find?_first _ pre post g hx hpre]
  · intro r ua hexact hcand
    obtain ⟨g0, hg0, a0, ha0, hp0, hne0⟩ := hcand
    have hf : r.groups.find?
        (fun g => g.user_agents.any (fun a => lowerStr a == lowerStr ua)) = none :=
      List.find?_eq_none.mpr (fun g hg => by simp [hexact g hg])
    have hmem : (g0, a0) ∈ r.groups.flatMap (fun g => g.user_agents.map (fun a => (g, a))) :=
      List.mem_flatMap.mpr ⟨g0, hg0, List.mem_map.mpr ⟨a0, ha0, rfl⟩⟩
    cases hq : (pickMax
        (fun pa : Group × Str =>
          (lowerStr pa.2).isPrefixOf (lowerStr ua) && lowerStr pa.2 != ['*'])
        (fun pa : Group × Str => (lowerStr pa.2).length)
        (r.groups.flatMap (fun g => g.user_agents.map (fun a => (g, a))))).1 with
    | none =>
      exfalso
      have h0 := pickMax_none _ _ _ hq (g0, a0) hmem hp0
      simp only [lowerStr, List.length_map] at h0
      exact hne0 (List.eq_nil_of_length_eq_zero h0)
    | some pa =>
      obtain ⟨hpred, _, _, _, hmax⟩ := pickMax_some _ _ _ pa hq
      refine ⟨pa.1, pa.2, ?_, ?_, hpred, ?_⟩
      · rw [findGroup_eq, hf, hq]
        rfl
      · obtain ⟨g', hg', hmm⟩ := List.mem_flatMap.mp (by
          obtain ⟨_, _, _, ⟨pre, post, hl, _, _⟩, _⟩ := pickMax_some _ _ _ pa hq
          rw [hl]
          exact List.mem_append.mpr (Or.inr (List.mem_cons_self _ _)))
        obtain ⟨a', ha', heq⟩ := List.mem_map.mp hmm
        rw [← heq]
        simpa using ha'
      · intro g' hg' a' ha' hp'
        have := hmax (g', a') (List.mem_flatMap.mpr ⟨g', hg', List.mem_map.mpr ⟨a', ha', rfl⟩⟩)
          hp'
        simpa [lowerStr] using this
  · intro r ua pre g post hexact hpfx hgs hstar hpre
    have hf : r.groups.find?
        (fun g => g.user_agents.any (fun a => lowerStr a == lowerStr ua)) = none :=
      List.find?_eq_none.mpr (fun g hg => by simp [hexact g hg])
    have hq : (pickMax
        (fun pa : Group × Str =>
          (lowerStr pa.2).isPrefixOf (lowerStr ua) && lowerStr pa.2 != ['*'])
        (fun pa : Group × Str => (lowerStr pa.2).length)
        (r.groups.flatMap (fun g => g.user_agents.map (fun a => (g, a))))).1 = none := by
      cases hq' : (pickMax
          (fun pa : Group × Str =>
            (lowerStr pa.2).isPrefixOf (lowerStr ua) && lowerStr pa.2 != ['*'])
          (fun pa : Group × Str => (lowerStr pa.2).length)
          (r.groups.flatMap (fun g => g.user_agents.map (fun a => (g, a))))).1 with
      | none => rfl
      | some pa =>
        exfalso
        obtain ⟨hpred, hpos, _, ⟨pre', post', hl, _, _⟩, _⟩ := pickMax_some _ _ _ pa hq'
        have hmem : pa ∈ r.groups.flatMap (fun g => g.user_agents.map (fun a => (g, a))) := by
          rw [hl]
          exact List.mem_append.mpr (Or.inr (List.mem_cons_self _ _))
        obtain ⟨g', hg', hmm⟩ := List.mem_flatMap.mp hmem
        obtain ⟨a', ha', heq⟩ := List.mem_map.mp hmm
        have hnil : a' = [] := hpfx g' hg' a' ha' (by rw [← heq] at hpred; exact hpred)
        rw [← heq] at hpos
        simp [hnil, lowerStr] at hpos
    rw [findGroup_eq, hf, hq, hgs, find?_first _ pre post g hstar hpre]
    rfl
  · intro r ua hexact hpfx hstar
    have hf : r.groups.find?
        (fun g => g.user_agents.any (fun a => lowerStr a == lowerStr ua)) = none :=
      List.find?_eq_none.mpr (fun g hg => by simp [hexact g hg])
    have hq : (pickMax
        (fun pa : Group × Str =>
          (lowerStr pa.2).isPrefixOf (lowerStr ua) && lowerStr pa.2 != ['*'])
        (fun pa : Group × Str => (lowerStr pa.2).length)
        (r.groups.flatMap (fun g => g.user_agents.map (fun a => (g, a))))).1 = none := by
      cases hq' : (pickMax
          (fun pa : Group × Str =>
            (lowerStr pa.2).isPrefixOf (lowerStr ua) && lowerStr pa.2 != ['*'])
          (fun pa : Group × Str => (lowerStr pa.2).length)
          (r.groups.flatMap (fun g => g.user_agents.map (fun a => (g, a))))).1 with
      | none => rfl
      | some pa =>
        exfalso
        obtain ⟨hpred, hpos, _, ⟨pre', post', hl, _, _⟩, _⟩ := pickMax_some _ _ _ pa hq'
        have hmem : pa ∈ r.groups.flatMap (fun g => g.user_agents.map (fun a => (g, a))) := by
          rw [hl]
          exact List.mem_append.mpr (Or.inr (List.mem_cons_self _ _))
        obtain ⟨g', hg', hmm⟩ := List.mem_flatMap.mp hmem
        obtain ⟨a', ha', heq⟩ := List.mem_map.mp hmm
        have hnil : a' = [] := hpfx g' hg' a' ha' (by rw [← heq] at hpred; exact hpred)
        rw [← heq] at hpos
        simp [hnil, lowerStr] at hpos
    have hs : r.groups.find? (fun g => g.user_agents.any (fun a => a == ['*'])) = none :=
      List.find?_eq_none.mpr (fun g hg => by simp [hstar g hg])
    have hnone : r.findGroup ua = none := by
      rw [findGroup_eq, hf, hq, hs]
      rfl
    exact ⟨hnone, fun path => by simp [Robot.allowPath, hnone]⟩

/-- Closed instance of `c8_amended`: the GoodBot group is picked by the
exact stage in the scenario file, and a prefix candidate `Good` beats the
wildcard for agent `Goodness`. -/
theorem c8_amended_witness :
    ((Robot.new "User-agent: *\nDisallow: /\nUser-agent: GoodBot".toList).groups
        = [⟨[['*']], [⟨"/".toList, false⟩], none, none⟩, ⟨["GoodBot".toList], [], none, none⟩]
      ∧ (⟨["GoodBot".toList], [], none, none⟩ : Group).user_agents.any
          (fun a => lowerStr a == lowerStr "gOODbOT".toList) = true
      ∧ (Robot.new "User-agent: *\nDisallow: /\nUser-agent: GoodBot".toList).findGroup
          "gOODbOT".toList = some ⟨["GoodBot".toList], [], none, none⟩)
    ∧ (∃ g a, (Robot.new "User-agent: *\nDisallow: /\nUser-agent: Good".toList).findGroup
          "Goodness".toList = some g
        ∧ a ∈ g.user_agents
        ∧ ((lowerStr a).isPrefixOf (lowerStr "Goodness".toList)
            && lowerStr a != ['*']) = true
        ∧ ∀ g' ∈ (Robot.new "User-agent: *\nDisallow: /\nUser-agent: Good".toList).groups,
            ∀ a' ∈ g'.user_agents,
              ((lowerStr a').isPrefixOf (lowerStr "Goodness".toList)
                  && lowerStr a' != ['*']) = true →
                a'.length ≤ a.length) := by
  constructor
  · refine ⟨by decide, by decide, ?_⟩
    exact c8_amended.1 (Robot.new "User-agent: *\nDisallow: /\nUser-agent: GoodBot".toList)
      "gOODbOT".toList [⟨[['*']], [⟨"/".toList, false⟩], none, none⟩]
      ⟨["GoodBot".toList], [], none, none⟩ [] (by decide) (by decide) (by decide)
  · exact c8_amended.2.1 (Robot.new "User-agent: *\nDisallow: /\nUser-agent: Good".toList)
      "Goodness".toList (by decide)
      ⟨⟨["Good".toList], [], none, none⟩, by decide, "Good".toList, by decide, by decide,
        by decide⟩

/-! ## C7 — pattern matching vs the declarative grammar -/

/-- A hit of `findSub` is an in-range position where the needle occurs. -/
theorem findSub_some (s pat : Str) (j : Nat) (h : findSub s pat = some j) :
    pat <+: s.drop j ∧ j ≤ s.length := by
  induction s generalizing j with
  | nil =>
    rw [findSub.eq_def] at h
    by_cases hp : pat.isPrefixOf ([] : Str)
    · simp only [if_pos hp] at h
      obtain rfl : (0 : Nat) = j := by simpa using h
      exact ⟨List.isPrefixOf_iff_prefix.mp hp, Nat.le_refl _⟩
    · rw [if_neg hp] at h
      simp at h
  | cons c t ih =>
    rw [findSub.eq_def] at h
    by_cases hp : pat.isPrefixOf (c :: t)
    · simp only [if_pos hp] at h
      obtain rfl : (0 : Nat) = j := by simpa using h
      exact ⟨List.isPrefixOf_iff_prefix.mp hp, Nat.zero_le _⟩
    · simp only [if_neg hp, Option.map_eq_some'] at h
      obtain ⟨j', hj', rfl⟩ := h
      obtain ⟨h1, h2⟩ := ih j' hj'
      exact ⟨by simpa using h1, by simpa using h2⟩

/-- If the needle occurs at position `i`, `findSub` succeeds at some
position no later than `i`. -/
theorem findSub_le_of_occurrence (s pat : Str) (i : Nat) (h : pat <+: s.drop i) :
    ∃ j, findSub s pat = some j ∧ j ≤ i := by
  induction s generalizing i with
  | nil =>
    have hp : pat = [] := by simpa using h
    exact ⟨0, by rw [findSub.eq_def]; simp [hp, List.isPrefixOf_iff_prefix], Nat.zero_le _⟩
  | cons c t ih =>
    by_cases hp : pat.isPrefixOf (c :: t)
    · exact ⟨0, by rw [findSub.eq_def]; simp [hp], Nat.zero_le _⟩
    · cases i with
      | zero =>
        exact absurd (List.isPrefixOf_iff_prefix.mpr (by simpa using h)) hp
      | succ i' =>
        obtain ⟨j', hj', hle⟩ := ih i' (by simpa using h)
        exact ⟨j' + 1, by rw [findSub.eq_def]; simp [hp, hj'], by omega⟩

/-- An empty core pattern matches only the empty string. -/
theorem coreMatch_nil_iff (s : Str) : CoreMatch [] s ↔ s = [] := by
  constructor
  · intro h
    cases h
    rfl
  · rintro rfl
    exact CoreMatch.nil

/-- A literal head must be consumed literally. -/
theorem coreMatch_lit_iff (c : Char) (p s : Str) (hc : c ≠ '*') :
    CoreMatch (c :: p) s ↔ ∃ s', s = c :: s' ∧ CoreMatch p s' := by
  constructor
  · intro h
    cases h with
    | lit _ h => exact ⟨_, rfl, h⟩
    | starEmpty h => exact absurd rfl hc
    | starCons h => exact absurd rfl hc
  · rintro ⟨s', rfl, h⟩
    exact CoreMatch.lit hc h

/-- A star head absorbs an arbitrary leading run of characters. -/
theorem coreMatch_star_iff (p s : Str) :
    CoreMatch ('*' :: p) s ↔ ∃ g t, s = g ++ t ∧ CoreMatch p t := by
  constructor
  · intro h
    generalize hq : ('*' :: p) = q at h
    induction h with
    | nil => exact absurd hq (by simp)
    | lit hc _ _ =>
      injection hq with h1 h2
      exact absurd h1.symm hc
    | starEmpty h _ =>
      injection hq with h1 h2
      exact ⟨[], _, rfl, by rw [h2]; exact h⟩
    | starCons _ ih =>
      obtain ⟨g, t, rfl, hm⟩ := ih hq
      exact ⟨_ :: g, t, rfl, hm⟩
  · rintro ⟨g, t, rfl, h⟩
    induction g with
    | nil => exact CoreMatch.starEmpty h
    | cons c g' ih => exact CoreMatch.starCons ih

/-- A star-free core pattern matches only itself. -/
theorem coreMatch_starfree (p : Str) (hp : '*' ∉ p) (s : Str) :
    CoreMatch p s ↔ s = p := by
  induction p generalizing s with
  | nil => exact coreMatch_nil_iff s
  | cons c t ih =>
    have hc : c ≠ '*' := fun h => hp (h ▸ List.mem_cons_self c t)
    rw [coreMatch_lit_iff c t s hc]
    constructor
    · rintro ⟨s', rfl, h⟩
      rw [(ih (fun h => hp (List.mem_cons_of_mem c h)) s').mp h]
    · rintro rfl
      exact ⟨t, rfl, (ih (fun h => hp (List.mem_cons_of_mem c h)) t).mpr rfl⟩

/-- `split` always yields at least one piece. -/
theorem splitStar_ne_nil : ∀ p : Str, splitStar p ≠ []
  | [] => by simp [splitStar, splitOnChar]
  | c :: r => by
    by_cases hc : c = '*'
    · simp [splitStar, splitOnChar, hc]
    · simp only [splitStar, splitOnChar, beq_iff_eq, if_neg hc]
      cases splitOnChar '*' r <;> simp

/-- `splitStar` on a leading star. -/
theorem splitStar_star (r : Str) : splitStar ('*' :: r) = [] :: splitStar r := by
  simp [splitStar, splitOnChar]

/-- `splitStar` on a leading non-star character prepends it to the first
piece. -/
theorem splitStar_cons (c : Char) (r : Str) (hc : c ≠ '*') :
    ∃ q qs, splitStar r = q :: qs ∧ splitStar (c :: r) = (c :: q) :: qs := by
  cases hs : splitStar r with
  | nil => exact absurd hs (splitStar_ne_nil r)
  | cons q qs =>
    refine ⟨q, qs, rfl, ?_⟩
    simp only [splitStar, splitOnChar, beq_iff_eq, if_neg hc] at hs ⊢
    rw [hs]

/-- A one-piece split means the pattern is star-free and equal to the
piece. -/
theorem splitStar_singleton : ∀ (p q : Str), splitStar p = [q] → p = q ∧ '*' ∉ p
  | [], q, h => by
    simp only [splitStar, splitOnChar] at h
    obtain rfl : ([] : Str) = q := by simpa using h
    simp
  | c :: r, q, h => by
    by_cases hc : c = '*'
    · subst hc
      rw [splitStar_star] at h
      obtain ⟨rfl, h2⟩ := by simpa using h
      exact absurd h2 (splitStar_ne_nil r)
    · obtain ⟨q', qs, hr, hcr⟩ := splitStar_cons c r hc
      rw [hcr] at h
      obtain ⟨h1, h2⟩ := by simpa using h
      obtain ⟨rfl, hmem⟩ := splitStar_singleton r q' (by rw [hr, h2])
      constructor
      · rw [← h1]
      · intro hmem2
        rcases List.mem_cons.mp hmem2 with h3 | h3
        · exact hc h3.symm
        · exact hmem h3

/-- Inversion: a single segment matches exactly itself. -/
theorem segsMatch_single_iff (q s : Str) : SegsMatch [q] s ↔ s = q := by
  constructor
  · intro h
    cases h with
    | single => rfl
    | cons q g h => cases h
  · rintro rfl
    exact SegsMatch.single _

/-- Inversion: a leading empty segment contributes an arbitrary gap. -/
theorem segsMatch_nil_cons_iff (segs : List Str) (s : Str) (hne : segs ≠ []) :
    SegsMatch ([] :: segs) s ↔ ∃ g t, s = g ++ t ∧ SegsMatch segs t := by
  constructor
  · intro h
    cases h with
    | single => exact absurd rfl hne
    | cons q g h => exact ⟨g, _, by simp, h⟩
  · rintro ⟨g, t, rfl, h⟩
    simpa using SegsMatch.cons [] g h

/-- Inversion: a leading character of the first segment is consumed
literally. -/
theorem segsMatch_cons_char_iff (c : Char) (q : Str) (qs : List Str) (s : Str) :
    SegsMatch ((c :: q) :: qs) s ↔ ∃ s', s = c :: s' ∧ SegsMatch (q :: qs) s' := by
  constructor
  · intro h
    cases h with
    | single => exact ⟨q, rfl, SegsMatch.single q⟩
    | cons _ g h => exact ⟨q ++ g ++ _, by simp, SegsMatch.cons q g h⟩
  · rintro ⟨s', rfl, h⟩
    cases h with
    | single => exact SegsMatch.single (c :: q)
    | cons _ g h => simpa using SegsMatch.cons (c :: q) g h

/-- `CoreMatch` is segment decomposition along the star-split of the
pattern. -/
theorem coreMatch_iff_segs : ∀ (p s : Str), CoreMatch p s ↔ SegsMatch (splitStar p) s
  | [], s => by
    rw [coreMatch_nil_iff]
    show _ ↔ SegsMatch [[]] s
    rw [segsMatch_single_iff]
  | c :: r, s => by
    by_cases hc : c = '*'
    · subst hc
      rw [splitStar_star, coreMatch_star_iff,
        segsMatch_nil_cons_iff (splitStar r) s (splitStar_ne_nil r)]
      constructor
      · rintro ⟨g, t, rfl, h⟩
        exact ⟨g, t, rfl, (coreMatch_iff_segs r t).mp h⟩
      · rintro ⟨g, t, rfl, h⟩
        exact ⟨g, t, rfl, (coreMatch_iff_segs r t).mpr h⟩
    · obtain ⟨q, qs, hr, hcr⟩ := splitStar_cons c r hc
      rw [hcr, coreMatch_lit_iff c r s hc, segsMatch_cons_char_iff]
      constructor
      · rintro ⟨s', rfl, h⟩
        exact ⟨s', rfl, by rw [← hr]; exact (coreMatch_iff_segs r s').mp h⟩
      · rintro ⟨s', rfl, h⟩
        refine ⟨s', rfl, (coreMatch_iff_segs r s').mpr ?_⟩
        rw [hr]
        exact h

/-- Prepending more characters to the leading gap preserves a tail
decomposition. -/
theorem tailSegs_prepend {segs : List Str} {anch : Bool} {s : Str}
    (h : TailSegs segs anch s) (g : Str) : TailSegs segs anch (g ++ s) := by
  cases h with
  | lastAnchored q g' => simpa using TailSegs.lastAnchored q (g ++ g')
  | lastFree q g' t => simpa using TailSegs.lastFree q (g ++ g') t
  | cons q g' h => simpa using TailSegs.cons q (g ++ g') h

/-- Inversion: one anchored segment is a suffix after a gap. -/
theorem tailSegs_single_anch_iff (q s : Str) : TailSegs [q] true s ↔ q <:+ s := by
  constructor
  · intro h
    cases h with
    | lastAnchored _ g => exact ⟨g, rfl⟩
    | cons _ g h => cases h
  · rintro ⟨g, rfl⟩
    exact TailSegs.lastAnchored q g

/-- Inversion: one free segment occurs somewhere. -/
theorem tailSegs_single_free_iff (q s : Str) :
    TailSegs [q] false s ↔ ∃ g t, s = g ++ q ++ t := by
  constructor
  · intro h
    cases h with
    | lastFree _ g t => exact ⟨g, t, rfl⟩
    | cons _ g h => cases h
  · rintro ⟨g, t, rfl⟩
    exact TailSegs.lastFree q g t

/-- Inversion: with at least two segments, the first is consumed after a
gap and the rest decompose the remainder. -/
theorem tailSegs_cons2_iff (q q2 : Str) (rest : List Str) (anch : Bool) (s : Str) :
    TailSegs (q :: q2 :: rest) anch s
      ↔ ∃ g t, s = g ++ q ++ t ∧ TailSegs (q2 :: rest) anch t := by
  constructor
  · intro h
    cases h with
    | cons _ g h => exact ⟨g, _, rfl, h⟩
  · rintro ⟨g, t, rfl, h⟩
    exact TailSegs.cons q g h

/-- A segment decomposition becomes an anchored tail decomposition under any
leading gap. -/
theorem segsMatch_tailSegs {segs : List Str} {u : Str} (h : SegsMatch segs u) :
    ∀ g : Str, TailSegs segs true (g ++ u) := by
  induction h with
  | single q => exact fun g => TailSegs.lastAnchored q g
  | cons q g' h ih =>
    intro g
    have := TailSegs.cons q g (ih g')
    simpa using this

/-- An anchored tail decomposition is a gap followed by a segment
decomposition. -/
theorem tailSegs_segsMatch {segs : List Str} {s : Str} (h : TailSegs segs true s) :
    ∃ g u, s = g ++ u ∧ SegsMatch segs u := by
  generalize hb : true = b at h
  induction h with
  | lastAnchored q g => exact ⟨g, q, rfl, SegsMatch.single q⟩
  | lastFree q g t => exact absurd hb (by simp)
  | cons q g h ih =>
    obtain ⟨g', u', rfl, hm⟩ := ih hb
    exact ⟨g, q ++ g' ++ u', by simp, SegsMatch.cons q g' hm⟩

/-- A free tail decomposition is an anchored one followed by arbitrary
trailing characters. -/
theorem tailSegs_free_iff (segs : List Str) (s : Str) :
    TailSegs segs false s ↔ ∃ t u, s = t ++ u ∧ TailSegs segs true t := by
  constructor
  · intro h
    generalize hb : false = b at h
    induction h with
    | lastAnchored q g => exact absurd hb (by simp)
    | lastFree q g t =>
      exact ⟨g ++ q, t, by simp, TailSegs.lastAnchored q g⟩
    | cons q g h ih =>
      obtain ⟨t', u', rfl, hm⟩ := ih hb
      exact ⟨g ++ q ++ t', u', by simp, TailSegs.cons q g hm⟩
  · rintro ⟨t, u, rfl, h⟩
    generalize hb : true = b at h
    induction h with
    | lastAnchored q g => simpa using TailSegs.lastFree q g u
    | lastFree q g t => exact absurd hb (by simp)
    | cons q g h ih => simpa using TailSegs.cons q g (ih hb)

/-- `q` is a suffix of `s.drop pos` iff it is a suffix of `s` that fits
after `pos`. -/
theorem suffix_drop_iff (q s : Str) (pos : Nat) (hpos : pos ≤ s.length) :
    q <:+ s.drop pos ↔ q <:+ s ∧ pos + q.length ≤ s.length := by
  constructor
  · intro h
    refine ⟨h.trans (List.drop_suffix pos s), ?_⟩
    have h1 := h.length_le
    rw [List.length_drop] at h1
    omega
  · rintro ⟨⟨w, rfl⟩, hlen⟩
    rw [List.length_append] at hlen hpos
    have hw : pos ≤ w.length := by omega
    refine ⟨w.drop pos, ?_⟩
    rw [List.drop_append_eq_append_drop, Nat.sub_eq_zero_of_le hw, List.drop_zero]

/-- Correctness of the matcher loop: with at least one remaining part and an
in-range position, the loop succeeds exactly when the remaining parts admit
a (gap-prefixed) tail decomposition of the remaining path. -/
theorem matchLoop_iff (path : Str) (anch : Bool) :
    ∀ (segs : List Str) (pos : Nat), segs ≠ [] → pos ≤ path.length →
      (matchLoop path anch segs pos = true ↔ TailSegs segs anch (path.drop pos))
  | [], _, hne, _ => absurd rfl hne
  | [q], pos, _, hpos => by
    cases anch with
    | true =>
      show (q.isSuffixOf path && decide (pos ≤ path.length - q.length)) = true ↔ _
      rw [tailSegs_single_anch_iff, suffix_drop_iff q path pos hpos,
        Bool.and_eq_true, List.isSuffixOf_iff_suffix, decide_eq_true_eq]
      constructor
      · rintro ⟨h1, h2⟩
        have := h1.length_le
        exact ⟨h1, by omega⟩
      · rintro ⟨h1, h2⟩
        have := h1.length_le
        exact ⟨h1, by omega⟩
    | false =>
      show (findSub (path.drop pos) q).isSome = true ↔ _
      rw [tailSegs_single_free_iff, Option.isSome_iff_exists]
      constructor
      · rintro ⟨j, hj⟩
        obtain ⟨⟨t, ht⟩, -⟩ := findSub_some _ _ _ hj
        refine ⟨(path.drop pos).take j, t, ?_⟩
        rw [List.append_assoc, ht, List.take_append_drop]
      · rintro ⟨g, t, hgt⟩
        obtain ⟨j, hj, -⟩ := findSub_le_of_occurrence (path.drop pos) q g.length
          (by rw [hgt, List.append_assoc, List.drop_append_eq_append_drop,
                Nat.sub_self, List.drop_length, List.nil_append, List.drop_zero]
              exact ⟨t, rfl⟩)
        exact ⟨j, hj⟩
  | q :: q2 :: rest, pos, _, hpos => by
    have hML : matchLoop path anch (q :: q2 :: rest) pos
        = (match findSub (path.drop pos) q with
           | some j => matchLoop path anch (q2 :: rest) (pos + j + q.length)
           | none => false) := rfl
    rw [hML, tailSegs_cons2_iff]
    cases hfs : findSub (path.drop pos) q with
    | none =>
      constructor
      · intro h
        simp at h
      · rintro ⟨g, t, hgt, -⟩
        obtain ⟨j, hj, -⟩ := findSub_le_of_occurrence (path.drop pos) q g.length
          (by rw [hgt, List.append_assoc, List.drop_append_eq_append_drop,
                Nat.sub_self, List.drop_length, List.nil_append, List.drop_zero]
              exact ⟨t, rfl⟩)
        rw [hj] at hfs
        simp at hfs
    | some j =>
      obtain ⟨⟨t0, ht0⟩, hjle⟩ := findSub_some _ _ _ hfs
      rw [List.drop_drop] at ht0
      rw [List.length_drop] at hjle
      have hpos' : pos + j + q.length ≤ path.length := by
        have hlen := congrArg List.length ht0
        rw [List.length_append, List.length_drop] at hlen
        omega
      have ht0' : t0 = path.drop (pos + j + q.length) := by
        have h2 := congrArg (List.drop q.length) ht0
        rw [List.drop_left, List.drop_drop] at h2
        exact h2
      rw [matchLoop_iff path anch (q2 :: rest) (pos + j + q.length) (by simp) hpos']
      constructor
      · intro h
        refine ⟨(path.drop pos).take j, path.drop (pos + j + q.length), ?_, h⟩
        rw [List.append_assoc, ← ht0', ht0, ← List.drop_drop, List.take_append_drop]
      · rintro ⟨g, t, hgt, ht⟩
        have hocc : q <+: (path.drop pos).drop g.length := by
          rw [hgt, List.append_assoc, List.drop_append_eq_append_drop,
            Nat.sub_self, List.drop_length, List.nil_append, List.drop_zero]
          exact ⟨t, rfl⟩
        obtain ⟨j', hj', hj'le⟩ := findSub_le_of_occurrence (path.drop pos) q g.length hocc
        rw [hfs] at hj'
        injection hj' with hjj
        have hsplit : path.drop (pos + j + q.length)
            = (g ++ q).drop (j + q.length) ++ t := by
          have e1 : path.drop (pos + j + q.length)
              = (path.drop pos).drop (j + q.length) := by
            rw [List.drop_drop, Nat.add_assoc]
          rw [e1, hgt, List.drop_append_eq_append_drop,
            Nat.sub_eq_zero_of_le (by rw [List.length_append]; omega), List.drop_zero]
        rw [hsplit]
        exact tailSegs_prepend ht _

/-- Inversion: with at least two segments, the first (starting the string,
no gap) is consumed and the rest decompose the remainder after a gap. -/
theorem segsMatch_cons2_iff (p q : Str) (qs : List Str) (s : Str) :
    SegsMatch (p :: q :: qs) s ↔ ∃ g t, s = p ++ g ++ t ∧ SegsMatch (q :: qs) t := by
  constructor
  · intro h
    cases h with
    | cons _ g h => exact ⟨g, _, rfl, h⟩
  · rintro ⟨g, t, rfl, h⟩
    exact SegsMatch.cons p g h

/-- The anchored half of the main equivalence, phrased on the split. -/
theorem anchored_iff (p : Str) (p2 : Str) (rest : List Str) (path : Str) :
    (p <+: path ∧ TailSegs (p2 :: rest) true (path.drop p.length))
      ↔ SegsMatch (p :: p2 :: rest) path := by
  rw [segsMatch_cons2_iff]
  constructor
  · rintro ⟨⟨w, rfl⟩, ht⟩
    rw [List.drop_left] at ht
    obtain ⟨g, u, rfl, hm⟩ := tailSegs_segsMatch ht
    exact ⟨g, u, by simp, hm⟩
  · rintro ⟨g, t, rfl, hm⟩
    refine ⟨⟨g ++ t, by simp⟩, ?_⟩
    have h1 : (p ++ g ++ t).drop p.length = g ++ t := by
      rw [List.append_assoc, List.drop_left]
    rw [h1]
    exact segsMatch_tailSegs hm g

/-- `Robot::matches_pattern` agrees with the declarative grammar of the
specification: `*` matches any possibly empty run of characters, a trailing
`$` anchors the match to the end of the path, and all other characters
match literally (patterns match from the start of the path). -/
theorem matchesPattern_iff_spec (pattern path : Str) :
    matchesPattern pattern path = true ↔ SpecPatternMatches pattern path := by
  by_cases hd : pattern.getLast? = some '$'
  · have hb : (pattern.getLast? == some '$') = true := by simpa using hd
    have hspec : SpecPatternMatches pattern path = CoreMatch pattern.dropLast path := by
      simp [SpecPatternMatches, hd]
    rw [hspec]
    rcases hsp : splitStar pattern.dropLast with _ | ⟨p, _ | ⟨p2, rest⟩⟩
    · exact absurd hsp (splitStar_ne_nil _)
    · obtain ⟨hpq, hnostar⟩ := splitStar_singleton _ _ hsp
      have hmp : matchesPattern pattern path = (path == p) := by
        simp only [matchesPattern, hb, if_true, hsp]
      rw [hmp, coreMatch_starfree _ hnostar, beq_iff_eq, hpq]
    · have hmp : matchesPattern pattern path
          = (if p.isPrefixOf path then matchLoop path true (p2 :: rest) p.length
             else false) := by
        simp only [matchesPattern, hb, if_true, hsp]
      rw [hmp, coreMatch_iff_segs, hsp, ← anchored_iff]
      constructor
      · intro h
        by_cases hpre : p.isPrefixOf path
        · rw [if_pos hpre] at h
          have hp : p <+: path := List.isPrefixOf_iff_prefix.mp hpre
          exact ⟨hp, (matchLoop_iff path true (p2 :: rest) p.length (by simp)
            hp.length_le).mp h⟩
        · rw [if_neg hpre] at h
          cases h
      · rintro ⟨hp, ht⟩
        rw [if_pos (List.isPrefixOf_iff_prefix.mpr hp)]
        exact (matchLoop_iff path true (p2 :: rest) p.length (by simp) hp.length_le).mpr ht
  · have hb : (pattern.getLast? == some '$') = false := by simpa using hd
    have hspec : SpecPatternMatches pattern path
        = ∃ t u, path = t ++ u ∧ CoreMatch pattern t := by
      simp [SpecPatternMatches, hd]
    rw [hspec]
    rcases hsp : splitStar pattern with _ | ⟨p, _ | ⟨p2, rest⟩⟩
    · exact absurd hsp (splitStar_ne_nil _)
    · obtain ⟨hpq, hnostar⟩ := splitStar_singleton _ _ hsp
      have hmp : matchesPattern pattern path = p.isPrefixOf path := by
        simp only [matchesPattern, hb, Bool.false_eq_true, if_false, hsp]
      rw [hmp]
      constructor
      · intro h
        obtain ⟨w, rfl⟩ := List.isPrefixOf_iff_prefix.mp h
        exact ⟨p, w, rfl, (coreMatch_starfree pattern hnostar p).mpr hpq.symm⟩
      · rintro ⟨t, u, rfl, hc⟩
        have ht := (coreMatch_starfree pattern hnostar t).mp hc
        subst ht
        exact List.isPrefixOf_iff_prefix.mpr ⟨u, by rw [← hpq]⟩
    · have hmp : matchesPattern pattern path
          = (if p.isPrefixOf path then matchLoop path false (p2 :: rest) p.length
             else false) := by
        simp only [matchesPattern, hb, Bool.false_eq_true, if_false, hsp]
      rw [hmp]
      have hfree : (p <+: path ∧ TailSegs (p2 :: rest) false (path.drop p.length))
          ↔ ∃ t u, path = t ++ u ∧ CoreMatch pattern t := by
        constructor
        · rintro ⟨⟨w, rfl⟩, hf⟩
          rw [List.drop_left] at hf
          obtain ⟨t', u, huw, hta⟩ := (tailSegs_free_iff _ _).mp hf
          refine ⟨p ++ t', u, ?_, ?_⟩
          · rw [huw, ← List.append_assoc]
          · rw [coreMatch_iff_segs, hsp]
            refine (anchored_iff p p2 rest (p ++ t')).mp ⟨⟨t', rfl⟩, ?_⟩
            rw [List.drop_left]
            exact hta
        · rintro ⟨t, u, rfl, hc⟩
          rw [coreMatch_iff_segs, hsp] at hc
          obtain ⟨hp, hta⟩ := (anchored_iff p p2 rest t).mpr hc
          obtain ⟨w, rfl⟩ := hp
          refine ⟨⟨w ++ u, by simp⟩, ?_⟩
          have h1 : (p ++ w ++ u).drop p.length = w ++ u := by
            rw [List.append_assoc, List.drop_left]
          rw [h1]
          rw [List.drop_left] at hta
          exact (tailSegs_free_iff _ _).mpr ⟨w, u, rfl, hta⟩
      rw [← hfree]
      constructor
      · intro h
        by_cases hpre : p.isPrefixOf path
        · rw [if_pos hpre] at h
          have hp : p <+: path := List.isPrefixOf_iff_prefix.mp hpre
          exact ⟨hp, (matchLoop_iff path false (p2 :: rest) p.length (by simp)
            hp.length_le).mp h⟩
        · rw [if_neg hpre] at h
          cases h
      · rintro ⟨hp, ht⟩
        rw [if_pos (List.isPrefixOf_iff_prefix.mpr hp)]
        exact (matchLoop_iff path false (p2 :: rest) p.length (by simp) hp.length_le).mpr ht

/-- C7: `Robot::matches_pattern` implements exactly the declarative grammar
— `*` matches any possibly empty run of characters, a trailing `$` anchors
the match to the end of the path, all other characters match literally —
and under the single rule `Disallow: /*.pdf$`, `/a/b.pdf` is denied while
`/a/b.pdfx` is allowed. -/
theorem c7_pattern_semantics :
    (∀ pattern path : Str,
      matchesPattern pattern path = true ↔ SpecPatternMatches pattern path)
    ∧ (Robot.new "User-agent: *\nDisallow: /*.pdf$".toList).allowPath
        "/a/b.pdf".toList "Bot".toList = false
    ∧ (Robot.new "User-agent: *\nDisallow: /*.pdf$".toList).allowPath
        "/a/b.pdfx".toList "Bot".toList = true :=
  ⟨matchesPattern_iff_spec, by decide, by decide⟩

/-- Closed instance of `c7_pattern_semantics`: the declarative semantics
derived from the matcher on the concrete pattern of the scenario. -/
theorem c7_pattern_semantics_witness :
    SpecPatternMatches "/*.pdf$".toList "/a/b.pdf".toList
      ∧ ¬ SpecPatternMatches "/*.pdf$".toList "/a/b.pdfx".toList
      ∧ SpecPatternMatches "/public/".toList "/public/x".toList :=
  ⟨(c7_pattern_semantics.1 "/*.pdf$".toList "/a/b.pdf".toList).mp (by decide),
    fun h => by
      have := (c7_pattern_semantics.1 "/*.pdf$".toList "/a/b.pdfx".toList).mpr h
      simp at this
      exact absurd this (by decide),
    (c7_pattern_semantics.1 "/public/".toList "/public/x".toList).mp (by decide)⟩

/-! ## C10 — URLs silently dropped while building the cross-host batch -/

/-- `find?` commutes with a map that does not affect the predicate. -/
theorem find?_map_pred {α : Type} (f : α → α) (p : α → Bool) (hp : ∀ x, p (f x) = p x) :
    ∀ l : List α, (l.map f).find? p = (l.find? p).map f
  | [] => rfl
  | a :: t => by
    rw [List.map_cons]
    cases hpa : p a with
    | true =>
      rw [List.find?_cons_of_pos t hpa, List.find?_cons_of_pos _ (by rw [hp a, hpa])]
      rfl
    | false =>
      rw [List.find?_cons_of_neg t (by simp [hpa]),
        List.find?_cons_of_neg _ (by simp [hp a, hpa])]
      exact find?_map_pred f p hp t

/-- A successful `find?` is unaffected by appending. -/
theorem find?_append_some {α : Type} (p : α → Bool) (x : α) :
    ∀ (l l2 : List α), l.find? p = some x → (l ++ l2).find? p = some x
  | [], _, h => by simp at h
  | a :: t, l2, h => by
    rw [List.cons_append]
    cases hpa : p a with
    | true =>
      rw [List.find?_cons_of_pos t hpa] at h
      rw [List.find?_cons_of_pos _ hpa]
      exact h
    | false =>
      rw [List.find?_cons_of_neg t (by simp [hpa])] at h
      rw [List.find?_cons_of_neg _ (by simp [hpa])]
      exact find?_append_some p x t l2 h

/-- With distinct URLs, the entry found by URL is the member itself. -/
theorem find?_url_of_nodup :
    ∀ (l : List FrontierEntry), (l.map (fun e => e.url)).Nodup →
      ∀ e ∈ l, l.find? (fun x => x.url == e.url) = some e
  | [], _, e, he => absurd he (by simp)
  | a :: t, hnd, e, he => by
    rcases List.mem_cons.mp he with rfl | he'
    · exact List.find?_cons_of_pos t (by simp)
    · have hne : a.url ≠ e.url := by
        intro hcontra
        have h1 : e.url ∈ t.map (fun e => e.url) := List.mem_map.mpr ⟨e, he', rfl⟩
        rw [List.map_cons, List.nodup_cons] at hnd
        exact hnd.1 (hcontra ▸ h1)
      rw [List.find?_cons_of_neg t (by simp [hne])]
      exact find?_url_of_nodup t (by rw [List.map_cons, List.nodup_cons] at hnd
                                     exact hnd.2) e he'

/-- Setting the status of the entries with a given URL does not change the
URL list of the frontier. -/
theorem mapurl_update (u : Str) (st : EntryStatus) :
    ∀ f : List FrontierEntry,
      (f.map (fun e2 => if e2.url == u then { e2 with status := st } else e2)).map
          (fun e => e.url)
        = f.map (fun e => e.url)
  | [] => rfl
  | a :: t => by
    simp only [List.map_cons, mapurl_update u st t]
    congr 1
    split <;> rfl

/-- After setting the status of the entries with URL `u`, `u`'s status is
the new one (provided an entry for `u` exists). -/
theorem statusOf_update_self (f : List FrontierEntry) (pg : List Str) (u : Str)
    (st : EntryStatus) (hex : ∃ e ∈ f, e.url = u) :
    statusOf ⟨f.map (fun e2 => if e2.url == u then { e2 with status := st } else e2), pg⟩ u
      = some st := by
  unfold statusOf
  rw [find?_map_pred _ _ (fun e2 => by
    show (((if e2.url == u then { e2 with status := st } else e2)).url == u) = _
    split <;> rfl)]
  obtain ⟨e, he, hu⟩ := hex
  have hsome : (f.find? (fun x => x.url == u)).isSome := by
    rw [List.find?_isSome]
    exact ⟨e, he, by simp [hu]⟩
  obtain ⟨e2, he2⟩ := Option.isSome_iff_exists.mp hsome
  have hpe : (e2.url == u) = true := by simpa using List.find?_some he2
  rw [he2]
  simp only [Option.map_some']
  rw [if_pos hpe]

/-- Setting the status of the entries with URL `u` leaves every other URL's
status unchanged. -/
theorem statusOf_update_other (f : List FrontierEntry) (pg pg' : List Str) (u : Str)
    (st : EntryStatus) (v : Str) (hv : v ≠ u) :
    statusOf ⟨f.map (fun e2 => if e2.url == u then { e2 with status := st } else e2), pg⟩ v
      = statusOf ⟨f, pg'⟩ v := by
  unfold statusOf
  rw [find?_map_pred _ _ (fun e2 => by
    show (((if e2.url == u then { e2 with status := st } else e2)).url == v) = _
    split <;> rfl)]
  cases hfv : f.find? (fun x => x.url == v) with
  | none => rfl
  | some e2 =>
    have hpe : e2.url = v := by simpa using List.find?_some hfv
    simp only [Option.map_some']
    rw [if_neg (by simp only [hpe, beq_iff_eq]; exact hv)]

/-- What `next_queue` does: it leaves the pages and the URL list of the
frontier unchanged, moves the returned URL's entry from `pending` to
`processing`, leaves every other URL's entry unchanged, and the returned
URL had a pending entry. -/
theorem nextQueue_spec (s : EngineState) (u ho : Str) (s' : EngineState)
    (hn : nextQueue s = some (u, ho, s')) :
    s'.pages = s.pages
    ∧ s'.frontier.map (fun e => e.url) = s.frontier.map (fun e => e.url)
    ∧ statusOf s' u = some .processing
    ∧ (∀ v, v ≠ u → statusOf s' v = statusOf s v)
    ∧ (∃ e ∈ s.frontier, e.url = u ∧ e.status = .pending) := by
  unfold nextQueue at hn
  cases hf : s.frontier.find? (isMaxPending s.frontier) with
  | none =>
    rw [hf] at hn
    cases hn
  | some e =>
    rw [hf] at hn
    simp only [Option.some.injEq, Prod.mk.injEq] at hn
    obtain ⟨hu, hh, hs⟩ := hn
    subst hu hh hs
    have hmem : e ∈ s.frontier := List.mem_of_find?_eq_some hf
    have hpend : e.status = .pending := by
      have h2 := List.find?_some hf
      unfold isMaxPending at h2
      simpa using (Bool.and_eq_true_iff.mp h2).1
    refine ⟨rfl, mapurl_update e.url EntryStatus.processing s.frontier,
      statusOf_update_self s.frontier s.pages e.url EntryStatus.processing ⟨e, hmem, rfl⟩,
      fun v hv => statusOf_update_other s.frontier s.pages s.pages e.url
        EntryStatus.processing v hv,
      e, hmem, rfl, hpend⟩

/-- `save` only touches the pages, never the frontier. -/
theorem statusOf_savePage (s : EngineState) (u v : Str) :
    statusOf (savePage s u) v = statusOf s v := by
  unfold savePage
  split <;> rfl

/-- `save` of another URL does not make `v` seen. -/
theorem pages_savePage_iff (s : EngineState) (u v : Str) (hv : v ≠ u) :
    v ∈ (savePage s u).pages ↔ v ∈ s.pages := by
  unfold savePage
  split
  · exact Iff.rfl
  · simp [hv]

/-- `mark_as_visited` of another URL does not change `v`'s status. -/
theorem statusOf_markVisited_other (s : EngineState) (u v : Str) (hv : v ≠ u) :
    statusOf (markVisited s u) v = statusOf s v :=
  statusOf_update_other s.frontier s.pages s.pages u .completed v hv

/-- `add_to_queue` never touches the pages. -/
theorem pages_addToQueue : ∀ (links : List (Str × Str)) (s : EngineState),
    (addToQueue s links).pages = s.pages
  | [], _ => rfl
  | l :: t, s => by
    rw [show addToQueue s (l :: t)
        = addToQueue (if s.frontier.any (fun e => e.url == l.1) then s
            else { s with frontier := s.frontier
              ++ [{ url := l.1, host := l.2, priority := 0, status := .pending }] }) t
      from rfl, pages_addToQueue t]
    split <;> rfl

/-- `add_to_queue` preserves the status of any URL that already has an
entry: an existing entry blocks insertion of a duplicate, and appended
entries sit behind it. -/
theorem statusOf_addToQueue : ∀ (links : List (Str × Str)) (s : EngineState) (v : Str)
    (st : EntryStatus), statusOf s v = some st → statusOf (addToQueue s links) v = some st
  | [], _, _, _, h => h
  | l :: t, s, v, st, h => by
    rw [show addToQueue s (l :: t)
        = addToQueue (if s.frontier.any (fun e => e.url == l.1) then s
            else { s with frontier := s.frontier
              ++ [{ url := l.1, host := l.2, priority := 0, status := .pending }] }) t
      from rfl]
    apply statusOf_addToQueue t
    split
    · exact h
    · unfold statusOf at h ⊢
      obtain ⟨e2, he2⟩ : ∃ e2, s.frontier.find? (fun e => e.url == v) = some e2 := by
        cases hf : s.frontier.find? (fun e => e.url == v) with
        | none =>
          rw [hf] at h
          cases h
        | some e2 => exact ⟨e2, rfl⟩
      show ((s.frontier ++ _).find? (fun e => e.url == v)).map _ = _
      rw [find?_append_some _ e2 s.frontier _ he2]
      rw [he2] at h
      exact h

/-- The processing phase of one engine iteration touches only batch URLs:
any other URL keeps its frontier status and its seen-ness. -/
theorem processBatch_spec (oracle : Str → Option (List (Str × Str))) :
    ∀ (batch : List (Str × Str)) (s : EngineState) (v : Str) (st : EntryStatus),
      (∀ b ∈ batch, b.1 ≠ v) → statusOf s v = some st →
      statusOf (processBatch oracle batch s) v = some st
        ∧ (v ∈ (processBatch oracle batch s).pages ↔ v ∈ s.pages)
  | [], _, _, _, _, hst => ⟨hst, Iff.rfl⟩
  | b :: t, s, v, st, hb, hst => by
    have hvb : v ≠ b.1 := fun h2 => hb b (List.mem_cons_self b t) h2.symm
    rw [show processBatch oracle (b :: t) s = processBatch oracle t
        (match oracle b.1 with
         | none => s
         | some links => addToQueue (markVisited (savePage s b.1) b.1) links) from rfl]
    cases ho : oracle b.1 with
    | none =>
      exact processBatch_spec oracle t s v st
        (fun b2 hb2 => hb b2 (List.mem_cons_of_mem b hb2)) hst
    | some links =>
      have hst2 : statusOf (addToQueue (markVisited (savePage s b.1) b.1) links) v
          = some st := by
        apply statusOf_addToQueue
        rw [statusOf_markVisited_other _ _ _ hvb, statusOf_savePage]
        exact hst
      obtain ⟨h1, h2⟩ := processBatch_spec oracle t
        (addToQueue (markVisited (savePage s b.1) b.1) links) v st
        (fun b2 hb2 => hb b2 (List.mem_cons_of_mem b hb2)) hst2
      refine ⟨h1, h2.trans ?_⟩
      rw [pages_addToQueue]
      show v ∈ (markVisited (savePage s b.1) b.1).pages ↔ _
      exact pages_savePage_iff s b.1 v hvb

/-- The batch-building loop: it only flips pending entries to `processing`
(the URL list of the frontier and the saved pages are untouched), every
batch URL's entry is `processing`, and every dropped URL's entry is
`processing` while the URL is in no batch slot. -/
theorem buildBatch_spec (policy : Str → Bool) :
    ∀ (fuel : Nat) (s : EngineState) (batch : List (Str × Str)) (seen : List Str)
      (dropped : List Str),
      (s.frontier.map (fun e => e.url)).Nodup →
      (∀ b ∈ batch, statusOf s b.1 = some .processing) →
      (∀ u ∈ dropped, statusOf s u = some .processing ∧ u ∉ batch.map Prod.fst) →
      ((buildBatchAux policy fuel s batch seen dropped).2.2.frontier.map (fun e => e.url)
          = s.frontier.map (fun e => e.url))
        ∧ (buildBatchAux policy fuel s batch seen dropped).2.2.pages = s.pages
        ∧ (∀ b ∈ (buildBatchAux policy fuel s batch seen dropped).1,
            statusOf (buildBatchAux policy fuel s batch seen dropped).2.2 b.1
              = some .processing)
        ∧ (∀ u ∈ (buildBatchAux policy fuel s batch seen dropped).2.1,
            statusOf (buildBatchAux policy fuel s batch seen dropped).2.2 u
              = some .processing
            ∧ u ∉ (buildBatchAux policy fuel s batch seen dropped).1.map Prod.fst)
  | 0, s, batch, seen, dropped, _, hbatch, hdrop => ⟨rfl, rfl, hbatch, hdrop⟩
  | fuel + 1, s, batch, seen, dropped, hnd, hbatch, hdrop => by
    by_cases hlen : batch.length < 5
    · cases hnq : nextQueue s with
      | none =>
        rw [show buildBatchAux policy (fuel + 1) s batch seen dropped
            = (if batch.length < 5 then
                match nextQueue s with
                | none => (batch, dropped, s)
                | some (u, h, s') =>
                  if !seen.contains h && !hasSeen s' u && policy h then
                    buildBatchAux policy fuel s' (batch ++ [(u, h)]) (seen ++ [h]) dropped
                  else buildBatchAux policy fuel s' batch seen (dropped ++ [u])
              else (batch, dropped, s)) from rfl, if_pos hlen, hnq]
        exact ⟨rfl, rfl, hbatch, hdrop⟩
      | some r =>
        obtain ⟨u', h', s'⟩ := r
        obtain ⟨hpg, hurl, hself, hother, e, hemem, heurl, hepend⟩ :=
          nextQueue_spec s u' h' s' hnq
        have hnd' : (s'.frontier.map (fun e => e.url)).Nodup := by
          rw [hurl]
          exact hnd
        have hpendu : statusOf s u' = some .pending := by
          have hfind := find?_url_of_nodup s.frontier hnd e hemem
          unfold statusOf
          rw [heurl] at hfind
          rw [hfind, Option.map_some', hepend]
        have hnotb : ∀ b ∈ batch, b.1 ≠ u' := by
          intro b hbm hc
          have := hbatch b hbm
          rw [hc, hpendu] at this
          cases this
        have hnotd : ∀ u ∈ dropped, u ≠ u' := by
          intro u hu hc
          have := (hdrop u hu).1
          rw [hc, hpendu] at this
          cases this
        have hbatch' : ∀ b ∈ batch, statusOf s' b.1 = some .processing := by
          intro b hbm
          rw [hother b.1 (hnotb b hbm)]
          exact hbatch b hbm
        have hdrop' : ∀ u ∈ dropped, statusOf s' u = some .processing
            ∧ u ∉ batch.map Prod.fst := by
          intro u hu
          refine ⟨?_, (hdrop u hu).2⟩
          rw [hother u (hnotd u hu)]
          exact (hdrop u hu).1
        have hred : buildBatchAux policy (fuel + 1) s batch seen dropped
            = (if !seen.contains h' && !hasSeen s' u' && policy h' then
                buildBatchAux policy fuel s' (batch ++ [(u', h')]) (seen ++ [h']) dropped
              else buildBatchAux policy fuel s' batch seen (dropped ++ [u'])) := by
          rw [show buildBatchAux policy (fuel + 1) s batch seen dropped
              = (if batch.length < 5 then
                  match nextQueue s with
                  | none => (batch, dropped, s)
                  | some (u, h, s') =>
                    if !seen.contains h && !hasSeen s' u && policy h then
                      buildBatchAux policy fuel s' (batch ++ [(u, h)]) (seen ++ [h]) dropped
                    else buildBatchAux policy fuel s' batch seen (dropped ++ [u])
                else (batch, dropped, s)) from rfl, if_pos hlen, hnq]
        rw [hred]
        by_cases hcond : (!seen.contains h' && !hasSeen s' u' && policy h') = true
        · rw [if_pos hcond]
          have hbatch2 : ∀ b ∈ batch ++ [(u', h')],
              statusOf s' b.1 = some EntryStatus.processing := by
            intro b hbm
            rcases List.mem_append.mp hbm with hbm' | hbm'
            · exact hbatch' b hbm'
            · obtain rfl : b = (u', h') := by simpa using hbm'
              exact hself
          have hdrop2 : ∀ u ∈ dropped, statusOf s' u = some EntryStatus.processing
              ∧ u ∉ (batch ++ [(u', h')]).map Prod.fst := by
            intro u hu
            refine ⟨(hdrop' u hu).1, ?_⟩
            rw [List.map_append]
            intro hmem2
            rcases List.mem_append.mp hmem2 with hm | hm
            · exact (hdrop' u hu).2 hm
            · exact hnotd u hu (by simpa using hm)
          obtain ⟨r1, r2, r3, r4⟩ := buildBatch_spec policy fuel s'
            (batch ++ [(u', h')]) (seen ++ [h']) dropped hnd' hbatch2 hdrop2
          exact ⟨r1.trans hurl, r2.trans hpg, r3, r4⟩
        · rw [if_neg hcond]
          have hdrop2 : ∀ u ∈ dropped ++ [u'],
              statusOf s' u = some EntryStatus.processing
                ∧ u ∉ batch.map Prod.fst := by
            intro u hu
            rcases List.mem_append.mp hu with hm | hm
            · exact hdrop' u hm
            · obtain rfl : u = u' := by simpa using hm
              refine ⟨hself, ?_⟩
              intro hmem2
              obtain ⟨b, hbm, hbu⟩ := List.mem_map.mp hmem2
              exact hnotb b hbm hbu
          obtain ⟨r1, r2, r3, r4⟩ := buildBatch_spec policy fuel s' batch seen
            (dropped ++ [u']) hnd' hbatch' hdrop2
          exact ⟨r1.trans hurl, r2.trans hpg, r3, r4⟩
    · rw [show buildBatchAux policy (fuel + 1) s batch seen dropped
          = (if batch.length < 5 then
              match nextQueue s with
              | none => (batch, dropped, s)
              | some (u, h, s') =>
                if !seen.contains h && !hasSeen s' u && policy h then
                  buildBatchAux policy fuel s' (batch ++ [(u, h)]) (seen ++ [h]) dropped
                else buildBatchAux policy fuel s' batch seen (dropped ++ [u])
            else (batch, dropped, s)) from rfl, if_neg hlen]
      exact ⟨rfl, rfl, hbatch, hdrop⟩

/-- C10: in the shared engine loop, a URL returned by `next_queue` while
building the cross-host batch that is not added to the batch — because its
host equals that of a batch URL, it was already seen, or the robot policy
check did not return true — is silently discarded for that iteration: it is
in no batch slot (hence never fetched), it is not saved and not marked
visited and not re-enqueued, and its frontier entry is left in the
`processing` state. -/
theorem c10_dropped_urls (policy : Str → Bool) (oracle : Str → Option (List (Str × Str)))
    (s : EngineState) (batch : List (Str × Str)) (dropped : List Str) (s3 : EngineState)
    (hnd : (s.frontier.map (fun e => e.url)).Nodup)
    (h : engineIteration policy oracle s = .processed batch dropped s3) :
    ∀ u ∈ dropped,
      u ∉ batch.map Prod.fst
      ∧ statusOf s3 u = some EntryStatus.processing
      ∧ (u ∈ s3.pages ↔ u ∈ s.pages) := by
  unfold engineIteration at h
  cases hnq : nextQueue s with
  | none =>
    rw [hnq] at h
    cases h
  | some r =>
    obtain ⟨u0, h0, s1⟩ := r
    rw [hnq] at h
    have h' : (if (!policy h0) = true then IterResult.skipped u0 s1
        else if hasSeen s1 u0 = true then IterResult.skipped u0 s1
        else
          IterResult.processed
            (buildBatchAux policy s1.frontier.length s1 [(u0, h0)] [h0] []).1
            (buildBatchAux policy s1.frontier.length s1 [(u0, h0)] [h0] []).2.1
            (processBatch oracle
              (buildBatchAux policy s1.frontier.length s1 [(u0, h0)] [h0] []).1
              (buildBatchAux policy s1.frontier.length s1 [(u0, h0)] [h0] []).2.2))
        = IterResult.processed batch dropped s3 := h
    clear h
    by_cases hpol : (!policy h0) = true
    · rw [if_pos hpol] at h'
      cases h'
    · rw [if_neg hpol] at h'
      by_cases hseen : hasSeen s1 u0 = true
      · rw [if_pos hseen] at h'
        cases h'
      · rw [if_neg hseen] at h'
        simp only [IterResult.processed.injEq] at h'
        obtain ⟨hb, hd, hs3⟩ := h'
        obtain ⟨hpg, hurl, hself, _, _⟩ := nextQueue_spec s u0 h0 s1 hnq
        have hnd1 : (s1.frontier.map (fun e => e.url)).Nodup := by
          rw [hurl]
          exact hnd
        obtain ⟨r1, r2, _, r4⟩ := buildBatch_spec policy s1.frontier.length s1
          [(u0, h0)] [h0] [] hnd1
          (by intro b hbm
              obtain rfl : b = (u0, h0) := by simpa using hbm
              exact hself)
          (by intro u hu
              simp at hu)
        intro u hu
        rw [← hd] at hu
        obtain ⟨hst, hnb⟩ := r4 u hu
        rw [hb] at hnb
        have hbne : ∀ b ∈ batch, b.1 ≠ u := by
          intro b hbm hc
          exact hnb (List.mem_map.mpr ⟨b, hbm, hc⟩)
        rw [hb] at hs3
        obtain ⟨hst3, hpg3⟩ := processBatch_spec oracle batch
          (buildBatchAux policy s1.frontier.length s1 [(u0, h0)] [h0] []).2.2
          u .processing hbne hst
        rw [hs3] at hst3 hpg3
        refine ⟨hnb, hst3, hpg3.trans ?_⟩
        rw [r2, hpg]

/-- Closed instance of `c10_dropped_urls`: with two pending URLs on the same
host `a`, the second is popped during batch building, dropped for having a
duplicate host, and after the iteration it is unfetched, unsaved, unvisited
and still `processing`. -/
theorem c10_dropped_urls_witness :
    (([⟨"http://a/1".toList, "a".toList, 0, EntryStatus.pending⟩,
       ⟨"http://a/2".toList, "a".toList, 0, EntryStatus.pending⟩] :
        List FrontierEntry).map (fun e => e.url)).Nodup
    ∧ engineIteration (fun _ => true) (fun _ => some ([] : List (Str × Str)))
        ⟨[⟨"http://a/1".toList, "a".toList, 0, EntryStatus.pending⟩,
          ⟨"http://a/2".toList, "a".toList, 0, EntryStatus.pending⟩], []⟩
      = IterResult.processed [("http://a/1".toList, "a".toList)] ["http://a/2".toList]
          ⟨[⟨"http://a/1".toList, "a".toList, 0, EntryStatus.completed⟩,
            ⟨"http://a/2".toList, "a".toList, 0, EntryStatus.processing⟩],
            ["http://a/1".toList]⟩
    ∧ "http://a/2".toList ∈ ["http://a/2".toList]
    ∧ ("http://a/2".toList ∉ [("http://a/1".toList, "a".toList)].map Prod.fst
        ∧ statusOf
            ⟨[⟨"http://a/1".toList, "a".toList, 0, EntryStatus.completed⟩,
              ⟨"http://a/2".toList, "a".toList, 0, EntryStatus.processing⟩],
              ["http://a/1".toList]⟩
            "http://a/2".toList = some EntryStatus.processing
        ∧ ("http://a/2".toList
              ∈ (⟨[⟨"http://a/1".toList, "a".toList, 0, EntryStatus.completed⟩,
                   ⟨"http://a/2".toList, "a".toList, 0, EntryStatus.processing⟩],
                   ["http://a/1".toList]⟩ : EngineState).pages
            ↔ "http://a/2".toList
              ∈ (⟨[⟨"http://a/1".toList, "a".toList, 0, EntryStatus.pending⟩,
                   ⟨"http://a/2".toList, "a".toList, 0, EntryStatus.pending⟩],
                   []⟩ : EngineState).pages)) :=
  ⟨by decide, by decide, by decide,
    c10_dropped_urls (fun _ => true) (fun _ => some [])
      ⟨[⟨"http://a/1".toList, "a".toList, 0, EntryStatus.pending⟩,
        ⟨"http://a/2".toList, "a".toList, 0, EntryStatus.pending⟩], []⟩
      [("http://a/1".toList, "a".toList)] ["http://a/2".toList]
      ⟨[⟨"http://a/1".toList, "a".toList, 0, EntryStatus.completed⟩,
        ⟨"http://a/2".toList, "a".toList, 0, EntryStatus.processing⟩],
        ["http://a/1".toList]⟩
      (by decide) (by decide) "http://a/2".toList (by decide)⟩

/-! ## C4 — robots.txt status handling (404 / 403) -/

/-- C4: the code contradicts the claimed status handling.  On a 403 response
with (say) an empty body, `StdOutCrawler::fetch_robot_txt` parses the body
into the empty `Robot` — which allows every path — instead of installing a
deny-everything robot; `SqliteCrawler::fetch_robot_txt` even parses the
body of a 404 into a `Robot` instead of remaining permissive with no robot.
Only the 404 case of the stdout crawler behaves as claimed. -/
theorem c4_robots_status_behavior :
    stdoutRobotFromFetch (some { status := 403, headers := [], body := [] })
        = some { groups := [], sitemaps := [] }
      ∧ (Robot.new []).allowPath "/x".toList "Bot".toList = true
      ∧ ({ groups := [], sitemaps := [] } : Robot).allowPath "/private".toList
          "AnyBot".toList = true
      ∧ stdoutRobotFromFetch
          (some { status := 404, headers := [], body := "User-agent: *\nDisallow: /".toList })
        = none
      ∧ sqliteRobotFromFetch
          (some { status := 404, headers := [], body := "User-agent: *\nDisallow: /".toList })
        = some (Robot.new "User-agent: *\nDisallow: /".toList)
      ∧ (Robot.new "User-agent: *\nDisallow: /".toList).allowPath "/x".toList
          "AnyBot".toList = false := by
  decide

/-! ## C5 — robots.txt fetch URL -/

/-- C5: `SqliteCrawler::fetch_robot_txt` builds
`{scheme}://{host}:/robots.txt`, dropping the port of the original URL (and
emitting a stray `:`), so for `http://example.com:8080/…` it requests
`http://example.com:/robots.txt` instead of the claimed
`http://example.com:8080/robots.txt`.  `StdOutCrawler::fetch_robot_txt`
builds the URL the claim describes. -/
theorem c5_robots_url_behavior :
    sqliteRobotsUrl ⟨"http".toList, some "example.com".toList, some 8080⟩
      = some "http://example.com:/robots.txt".toList
      ∧ some "http://example.com:/robots.txt".toList
          ≠ some "http://example.com:8080/robots.txt".toList
      ∧ stdoutRobotsUrl ⟨"http".toList, some "example.com".toList, some 8080⟩
        = "http://example.com:8080/robots.txt".toList
      ∧ stdoutRobotsUrl ⟨"https".toList, some "example.com".toList, none⟩
        = "https://example.com/robots.txt".toList := by
  decide

/-! ## C6 — OutLink rows written by `SqliteCrawler::save` -/

set_option maxRecDepth 4000 in
/-- C6 counterexample: for an anchor with a `mailto:` href and a
150-character text, `save` writes an OutLink whose `link_type` is
`"internal"` — although the extractor classifies the href as `mailto` — and
whose `link_text` is the full 150-character text, not truncated to 100. -/
theorem c6_counterexample :
    saveOutLinks 7 [⟨some "mailto:someone@example.com".toList, [longText]⟩]
      = [⟨7, "mailto:someone@example.com".toList, some longText, some "internal".toList⟩]
      ∧ classifyHrefKind "mailto:someone@example.com".toList = .mailto
      ∧ LinkClass.mailto ≠ LinkClass.javascript
          ∧ "mailto".toList ≠ "internal".toList
      ∧ longText.length = 150
      ∧ (extractorLinkText [longText]).length = 100 := by
  decide

/-- C6 (amended): `save` inserts one OutLink per `a[href]` anchor; each row
carries the raw href as `target_url`, the constant classification
`"internal"` regardless of the href, and the full concatenated anchor text
(null when empty) without truncation. -/
theorem c6_amended (pageId : Nat) (anchors : List Anchor) :
    (saveOutLinks pageId anchors).length
        = (anchors.filter (fun a => a.href.isSome)).length
      ∧ ∀ o ∈ saveOutLinks pageId anchors,
          o.link_type = some "internal".toList
          ∧ o.source_page_id = pageId
          ∧ ∃ a ∈ anchors, a.href = some o.target_url
              ∧ o.link_text = (if (joinText a.textNodes).isEmpty then none
                  else some (joinText a.textNodes)) := by
  constructor
  · induction anchors with
    | nil => rfl
    | cons a t ih =>
      rcases ha : a.href with _ | h <;>
        simp [saveOutLinks, List.filterMap_cons, ha, List.filter_cons] at ih ⊢ <;>
        exact ih
  · intro o ho
    induction anchors with
    | nil => simp [saveOutLinks] at ho
    | cons a t ih =>
      rcases ha : a.href with _ | h
      · rw [saveOutLinks, List.filterMap_cons, ha] at ho
        obtain ⟨h1, h2, a', ha', h3⟩ := ih (by rwa [saveOutLinks])
        exact ⟨h1, h2, a', List.mem_cons_of_mem _ ha', h3⟩
      · rw [saveOutLinks, List.filterMap_cons, ha] at ho
        rcases List.mem_cons.mp ho with rfl | ho'
        · refine ⟨rfl, rfl, a, List.mem_cons_self a t, by rw [ha], ?_⟩
          by_cases he : (joinText a.textNodes).isEmpty <;> simp [he]
        · obtain ⟨h1, h2, a', ha', h3⟩ := ih (by rwa [saveOutLinks])
          exact ⟨h1, h2, a', List.mem_cons_of_mem _ ha', h3⟩

/-- Closed instance of `c6_amended`. -/
theorem c6_amended_witness :
    (saveOutLinks 3 [⟨some "/x".toList, ["hi".toList]⟩, ⟨none, []⟩]).length = 1
      ∧ (⟨3, "/x".toList, some "hi".toList, some "internal".toList⟩ : OutLink)
          ∈ saveOutLinks 3 [⟨some "/x".toList, ["hi".toList]⟩, ⟨none, []⟩]
      ∧ (⟨3, "/x".toList, some "hi".toList, some "internal".toList⟩ : OutLink).link_type
          = some "internal".toList := by
  refine ⟨?_, by decide, ?_⟩
  · have h := (c6_amended 3 [⟨some "/x".toList, ["hi".toList]⟩, ⟨none, []⟩]).1
    rw [h]
    decide
  · have h := (c6_amended 3 [⟨some "/x".toList, ["hi".toList]⟩, ⟨none, []⟩]).2
      (⟨3, "/x".toList, some "hi".toList, some "internal".toList⟩ : OutLink) (by decide)
    exact h.1

/-- Closed instance of `c9_retry_behavior`. -/
theorem c9_retry_behavior_witness :
    (((503 : Nat) = 500 ∨ (503 : Nat) = 503) ∧ (5 : Nat) ≠ 0 ∧ (0 : Nat) < 3
      ∧ fetchLoop resolveAbs [serverResp 503] "u".toList 5 0 500 []
          = fetchLoop resolveAbs [] "u".toList 5 1 1000 [500])
    ∧ (¬ (3 : Nat) < 3
      ∧ fetchLoop resolveAbs [serverResp 500] "u".toList 5 3 4000 [500, 1000, 2000]
          = (.serverError 500, [500, 1000, 2000]))
    ∧ fetchedPageFetch resolveAbs
        [serverResp 500, serverResp 503, serverResp 500, serverResp 503] "u".toList
      = (.serverError 503, [500, 1000, 2000]) :=
  ⟨⟨Or.inr rfl, by decide, by decide,
      c9_retry_behavior.1 resolveAbs 503 [] "u".toList 5 0 500 [] (Or.inr rfl)
        (by decide) (by decide)⟩,
    ⟨by decide,
      c9_retry_behavior.2.1 resolveAbs 500 [] "u".toList 5 3 4000 [500, 1000, 2000]
        (Or.inl rfl) (by decide) (by decide)⟩,
    c9_retry_behavior.2.2.2 500 503 500 503 (Or.inl rfl) (Or.inr rfl) (Or.inl rfl)
      (Or.inr rfl)⟩

end Crawler
